import Mathlib

/-!
# btree: a shallow embedding of `node.go`

The Go program is a pointer structure: a `Btree` holds a `*Node`, every `Node`
holds its children and its parent as `*Node`.  The embedding keeps the pointers:
a `Heap` is the list of all allocated nodes, a `*Node` is an index into it
(`Option Nat`, `none` for `nil`), and every Go function becomes a function that
takes the heap and returns the new heap.  A Go runtime panic is the `error`
side of `Except Fault`.

Byte sequences (`[]byte`) are lists of naturals; the program only compares
bytes, it never computes with them.

Slices are lists.  The one place where the program's behaviour depends on two
slice values sharing one backing array inside a single function (the merge
loops of `rebalance`, which range over a slice while `removeChild` shifts the
same array) is modelled explicitly, see `reparentLoop`.  Item slices are
values: the sibling made by `split` shares its array with the split node in
Go, which this embedding does not track.  Every run evaluated below ends before
any write goes through such a shared array, so the states shown are the states
of the Go program; the general theorems speak of one call and of what each node
holds when that call returns, which the sharing does not change.
-/

namespace btree

/-! ## Data model -/

/-- Runtime failures of the Go program, and the two ways the model itself can stop. -/
inductive Fault where
  /-- Go: nil pointer dereference. -/
  | nilDeref
  /-- Go: index out of range. -/
  | indexOutOfRange
  /-- Go: slice bounds out of range. -/
  | sliceBounds
  /-- Go: a reslice `s[:k]` with `k` past the length; the outcome depends on the capacity. -/
  | pastLength
  /-- Model only: a node index that is not in the heap. -/
  | dangling
  /-- Model only: the recursion budget ran out (a cyclic structure). -/
  | outOfFuel
  deriving DecidableEq, Repr

/-- The Go type `inode`: a key and a value. -/
structure inode where
  key : List Nat
  value : List Nat
  deriving DecidableEq, Repr

/-- The Go type `Node`. `children` and `parent` hold heap indices. -/
structure Node where
  isLeaf : Bool
  children : List Nat
  parent : Option Nat
  key : List Nat
  items : List inode
  deriving DecidableEq, Repr

/-- All allocated nodes; a `*Node` is an index into this list. -/
abbrev Heap := List Node

/-- The Go type `Btree` together with the memory its root pointer lives in. -/
structure Btree where
  heap : Heap
  root : Option Nat
  deriving DecidableEq, Repr

/-- Reading through a non-nil pointer. -/
def deref (h : Heap) (p : Nat) : Except Fault Node :=
  match h[p]? with
  | some n => .ok n
  | none => .error .dangling

/-- Writing through a non-nil pointer: the node at `p` is replaced by `f` of it. -/
def update (h : Heap) (p : Nat) (f : Node → Node) : Heap :=
  match h[p]? with
  | some n => h.set p (f n)
  | none => h

/-! ## Library functions the program calls -/

/-- Go `bytes.Compare`: lexicographic order on byte sequences, as -1, 0 or 1. -/
def bytesCompare : List Nat → List Nat → Int
  | [], [] => 0
  | [], _ :: _ => -1
  | _ :: _, [] => 1
  | a :: as, b :: bs =>
    if a < b then -1 else if b < a then 1 else bytesCompare as bs

/-- Go `bytes.Equal`. -/
def bytesEqual (a b : List Nat) : Bool := decide (a = b)

/-- The loop of Go `sort.Search`: `for i < j { h := (i+j)/2; if !f(h) { i = h+1 } else { j = h } }`.
The first argument bounds the number of iterations. -/
def sortSearchLoop (f : Nat → Bool) : Nat → Nat → Nat → Nat
  | 0, i, _ => i
  | fuel + 1, i, j =>
    if i < j then
      let h := (i + j) / 2
      if !f h then sortSearchLoop f fuel (h + 1) j else sortSearchLoop f fuel i h
    else i

/-- Go `sort.Search(n, f)`. The interval `[i, j)` shrinks at every step, so `n` steps are enough. -/
def sortSearch (n : Nat) (f : Nat → Bool) : Nat := sortSearchLoop f n 0 n

/-- The indices at which `sort.Search` calls `f`, in order. -/
def sortSearchProbesLoop (f : Nat → Bool) : Nat → Nat → Nat → List Nat
  | 0, _, _ => []
  | fuel + 1, i, j =>
    if i < j then
      let h := (i + j) / 2
      if !f h then h :: sortSearchProbesLoop f fuel (h + 1) j
      else h :: sortSearchProbesLoop f fuel i h
    else []

/-- The indices probed by `sort.Search(n, f)`. -/
def sortSearchProbes (n : Nat) (f : Nat → Bool) : List Nat := sortSearchProbesLoop f n 0 n

/-- The closure `func(i int) bool { return bytes.Compare(items[i].key, k) != -1 }`. -/
def notLess (items : List inode) (k : List Nat) (i : Nat) : Bool :=
  match items[i]? with
  | some it => decide (bytesCompare it.key k ≠ -1)
  | none => false

/-- The test `bytes.Compare(items[i].key, k) == 0` made inside the closure of `searchNode`. -/
def isEqualAt (items : List inode) (k : List Nat) (i : Nat) : Bool :=
  match items[i]? with
  | some it => decide (bytesCompare it.key k = 0)
  | none => false

/-! ## `inodes` -/

/-- Go `copy(s[dst:], s[src:])` on one slice `s`, for `dst = src + 1`: the elements from
`src` on move one place to the right, the last one is dropped. -/
def shiftRight (s : List inode) (src : Nat) : List inode :=
  s.take (src + 1) ++ (s.drop src).take (s.length - (src + 1))

/-- Go `(*inodes).search`: the lower bound and `true` on a hit, the lower bound
minus one and `false` otherwise. -/
def inodes.search (n : List inode) (k : List Nat) : Int × Bool :=
  let index := sortSearch n.length (notLess n k)
  match n[index]? with
  | some it => if bytesEqual it.key k then ((index : Int), true) else ((index : Int) - 1, false)
  | none => ((index : Int) - 1, false)

/-- Go `(*inodes).insertAt`. The appended `nil` is a placeholder that the copy or the
final store overwrites. -/
def inodes.insertAt (n : List inode) (index : Nat) (item : inode) : Except Fault (List inode) :=
  let n1 := n ++ [⟨[], []⟩]
  let n2 := if index < n1.length then shiftRight n1 index else n1
  if index < n2.length then .ok (n2.set index item) else .error .indexOutOfRange

/-! ## `searchNode` -/

/-- Go `searchNode`. `exist` is the `*bool` argument: `none` is the nil pointer that
`Insert` passes, `some b` a pointer to a variable holding `b`; the variable's final
value is returned with the leaf. -/
def searchNode : Nat → Heap → List Nat → Nat → Option Bool → Except Fault (Nat × Option Bool)
  | 0, _, _, _, _ => .error .outOfFuel
  | fuel + 1, h, key, n, exist =>
    match deref h n with
    | .error e => .error e
    | .ok nd =>
      if nd.isLeaf then .ok (n, exist)
      else
        let exact := (sortSearchProbes nd.items.length (notLess nd.items key)).any
          (isEqualAt nd.items key)
        if exact && exist.isNone then .error .nilDeref
        else
          let exist1 := if exact then some true else exist
          let index := sortSearch nd.items.length (notLess nd.items key)
          let index1 := if !exact && index > 0 then index - 1 else index
          match nd.children[index1]? with
          | none => .error .indexOutOfRange
          | some c => searchNode fuel h key c exist1

/-! ## Methods of `Node` -/

/-- Go `(*Node).minkey`. -/
def Node.minkey (n : Node) : Nat := if n.isLeaf then 1 else 2

/-- Go `(*Node).childIndex`: the lower bound of `child.key` among the items of `n`. -/
def Node.childIndex (h : Heap) (n child : Nat) : Except Fault Nat :=
  match deref h n, deref h child with
  | .ok nd, .ok cd => .ok (sortSearch nd.items.length (notLess nd.items cd.key))
  | .error e, _ => .error e
  | _, .error e => .error e

/-- Go `(*Node).del`: removes the item at the lower bound of `key` when its key is `key`. -/
def Node.del (h : Heap) (n : Nat) (key : List Nat) : Except Fault Heap :=
  match deref h n with
  | .error e => .error e
  | .ok nd =>
    let index := sortSearch nd.items.length (notLess nd.items key)
    match nd.items[index]? with
    | none => .ok h
    | some it =>
      if !bytesEqual it.key key then .ok h
      else .ok (update h n (fun x => { x with items := x.items.eraseIdx index }))

/-- The position of the first occurrence of `target` in a children slice. -/
def firstIndex (target : Nat) : List Nat → Nat → Option Nat
  | [], _ => none
  | c :: cs, i => if c = target then some i else firstIndex target cs (i + 1)

/-- Go `(*Node).removeChild`: drops the first child that is `target`, if there is one. -/
def Node.removeChild (h : Heap) (n target : Nat) : Except Fault Heap :=
  match deref h n with
  | .error e => .error e
  | .ok nd =>
    match firstIndex target nd.children 0 with
    | none => .ok h
    | some i => .ok (update h n (fun x => { x with children := x.children.eraseIdx i }))

/-- Go `(*Node).nextSibling`; `none` is the nil result. -/
def Node.nextSibling (h : Heap) (n : Nat) : Except Fault (Option Nat) :=
  match deref h n with
  | .error e => .error e
  | .ok nd =>
    match nd.parent with
    | none => .ok none
    | some p =>
      match Node.childIndex h p n, deref h p with
      | .error e, _ => .error e
      | _, .error e => .error e
      | .ok index, .ok pd =>
        if ((index : Int) ≥ (pd.children.length : Int) - 1) then .ok none
        else
          match pd.children[index + 1]? with
          | some c => .ok (some c)
          | none => .error .indexOutOfRange

/-- Go `(*Node).prevSibling`; `none` is the nil result. -/
def Node.prevSibling (h : Heap) (n : Nat) : Except Fault (Option Nat) :=
  match deref h n with
  | .error e => .error e
  | .ok nd =>
    match nd.parent with
    | none => .ok none
    | some p =>
      match Node.childIndex h p n, deref h p with
      | .error e, _ => .error e
      | _, .error e => .error e
      | .ok index, .ok pd =>
        if index = 0 then .ok none
        else
          match pd.children[index - 1]? with
          | some c => .ok (some c)
          | none => .error .indexOutOfRange

/-! ## `split` -/

/-- The children loop of `split`:
`for i := splitIndex; i < len(n.children); i++ { n.children[i].parent = next;
next.children = append(next.children, n.children[i]);
n.children = append(n.children[:i], n.children[i+1:]...) }`.
The length is read again at every test; the first argument bounds the iterations. -/
def splitLoop (n next : Nat) : Nat → Nat → Heap → Except Fault Heap
  | 0, _, h => .ok h
  | fuel + 1, i, h =>
    match deref h n with
    | .error e => .error e
    | .ok nd =>
      match nd.children[i]? with
      | none => .ok h
      | some c =>
        match deref h c with
        | .error e => .error e
        | .ok _ =>
          let h1 := update h c (fun x => { x with parent := some next })
          let h2 := update h1 next (fun x => { x with children := x.children ++ [c] })
          let h3 := update h2 n (fun x => { x with children := x.children.eraseIdx i })
          splitLoop n next fuel (i + 1) h3

/-- Go `(*Node).split`. New nodes are allocated at the end of the heap. Two things are
simpler here than in Go: `next.items` is a list of its own, where in Go it shares the
array of `n.items`; and the reslice `n.children[:splitIndex]` past the length is the
fault `pastLength`, where Go extends into spare capacity when the slice has some. -/
def Node.split : Nat → Heap → Nat → Nat → Except Fault Heap
  | 0, _, _, _ => .error .outOfFuel
  | fuel + 1, h, n, splitIndex =>
    match deref h n with
    | .error e => .error e
    | .ok nd =>
      -- if n.parent == nil { n.parent = &Node{children: []*Node{n}} }
      let h1 := match nd.parent with
        | some _ => h
        | none =>
          update (h ++ [{ isLeaf := false, children := [n], parent := none, key := [], items := [] }])
            n (fun x => { x with parent := some h.length })
      match deref h1 n with
      | .error e => .error e
      | .ok nd1 =>
        match nd1.parent with
        | none => .error .nilDeref
        | some p =>
          -- next := &Node{isLeaf: n.isLeaf, parent: n.parent}
          let next := h1.length
          let h2 := h1 ++ [{ isLeaf := nd1.isLeaf, children := [], parent := some p, key := [],
                             items := [] }]
          -- next.parent.children = append(next.parent.children, next)
          match deref h2 p with
          | .error e => .error e
          | .ok _ =>
            let h3 := update h2 p (fun x => { x with children := x.children ++ [next] })
            match deref h3 n with
            | .error e => .error e
            | .ok nd3 =>
              -- next.items = n.items[splitIndex:]; n.items = n.items[:splitIndex]
              if splitIndex > nd3.items.length then .error .sliceBounds
              else
                let h4 := update h3 next (fun x => { x with items := nd3.items.drop splitIndex })
                let h5 := update h4 n (fun x => { x with items := x.items.take splitIndex })
                match deref h5 n with
                | .error e => .error e
                | .ok nd5 =>
                  let afterChildren : Except Fault Heap :=
                    if nd5.children.length > 0 then
                      match splitLoop n next nd5.children.length splitIndex h5 with
                      | .error e => .error e
                      | .ok h6 =>
                        match deref h6 n with
                        | .error e => .error e
                        | .ok nd6 =>
                          -- n.children = n.children[:splitIndex]
                          if splitIndex > nd6.children.length then .error .pastLength
                          else .ok (update h6 n
                            (fun x => { x with children := x.children.take splitIndex }))
                    else .ok h5
                  match afterChildren with
                  | .error e => .error e
                  | .ok h7 =>
                    -- if n.parent != nil && len(n.parent.children) > 5 { n.parent.split(...) }
                    match deref h7 n with
                    | .error e => .error e
                    | .ok nd7 =>
                      match nd7.parent with
                      | none => .ok h7
                      | some p7 =>
                        match deref h7 p7 with
                        | .error e => .error e
                        | .ok pd7 =>
                          if pd7.children.length > 5 then
                            Node.split fuel h7 p7 (pd7.children.length / 2)
                          else .ok h7

/-! ## `rebalance` -/

/-- The loop `for _, cc := range n.children { cc.parent = n }` of the root collapse. -/
def adoptLoop (n : Nat) : List Nat → Heap → Except Fault Heap
  | [], h => .ok h
  | cc :: rest, h =>
    match deref h cc with
    | .error e => .error e
    | .ok _ => adoptLoop n rest (update h cc (fun x => { x with parent := some n }))

/-- The merge loop `for _, child := range owner.children { child.parent.removeChild(child);
child.parent = dest }`.

Go evaluates `owner.children` once: the loop walks the positions `0 .. len-1` of the
backing array as it was when the loop began, and reads position `i` when it gets there.
`removeChild` on `owner` shifts that same array to the left in place
(`append(s[:j], s[j+1:]...)`), so the loop sees the shifted array. `arr` is that array:
it starts as `owner.children`, keeps its length, and after a removal at `j` from the
`len` children of `owner` its first `len - 1` places hold the children that remain while
the places from `len - 1` on keep what they held. Arguments: iterations left, position,
array, heap. -/
def reparentLoop (owner dest : Nat) : Nat → Nat → List Nat → Heap → Except Fault Heap
  | 0, _, _, h => .ok h
  | k + 1, i, arr, h =>
    match arr[i]? with
    | none => .ok h
    | some child =>
      match deref h child with
      | .error e => .error e
      | .ok cd =>
        -- child.parent.removeChild(child)
        match cd.parent with
        | none => .error .nilDeref
        | some p =>
          match deref h p with
          | .error e => .error e
          | .ok pd =>
            match Node.removeChild h p child with
            | .error e => .error e
            | .ok h1 =>
              let arr1 :=
                match firstIndex child pd.children 0 with
                | none => arr
                | some j =>
                  if p = owner then pd.children.eraseIdx j ++ arr.drop (pd.children.length - 1)
                  else arr
              -- child.parent = dest
              let h2 := update h1 child (fun x => { x with parent := some dest })
              reparentLoop owner dest k (i + 1) arr1 h2

/-- The field `n.parent`, read through a non-nil `n`. -/
def parentOf (h : Heap) (n : Nat) : Except Fault (Option Nat) :=
  match deref h n with
  | .error e => .error e
  | .ok nd => .ok nd.parent

/-- The last three statements of both merge branches and of the emptied-node branch:
`n.parent.del(key); n.parent.removeChild(gone); n.parent.rebalance()`, the last one
passed as `again`. `n.parent` is read anew at each statement. -/
def unlinkAndAscend (again : Heap → Nat → Except Fault Heap) (h : Heap) (n : Nat)
    (key : List Nat) (gone : Nat) : Except Fault Heap :=
  match parentOf h n with
  | .error e => .error e
  | .ok none => .error .nilDeref
  | .ok (some p1) =>
    match Node.del h p1 key with
    | .error e => .error e
    | .ok h1 =>
      match parentOf h1 n with
      | .error e => .error e
      | .ok none => .error .nilDeref
      | .ok (some p2) =>
        match Node.removeChild h1 p2 gone with
        | .error e => .error e
        | .ok h2 =>
          match parentOf h2 n with
          | .error e => .error e
          | .ok none => .error .nilDeref
          | .ok (some p3) => again h2 p3

/-- Go `(*Node).rebalance`. The first argument bounds the walk up the parent links. -/
def Node.rebalance : Nat → Heap → Nat → Except Fault Heap
  | 0, _, _ => .error .outOfFuel
  | fuel + 1, h, n =>
    match deref h n with
    | .error e => .error e
    | .ok nd =>
      if nd.items.length > nd.minkey then .ok h
      else
        match nd.parent with
        | none =>
          if !nd.isLeaf && nd.items.length = 1 then
            match nd.children[0]? with
            | none => .error .indexOutOfRange
            | some child =>
              match deref h child with
              | .error e => .error e
              | .ok cd =>
                let h1 := update h n (fun x => { x with isLeaf := cd.isLeaf })
                match deref h1 child with
                | .error e => .error e
                | .ok cd1 =>
                  let h2 := update h1 n (fun x => { x with items := cd1.items })
                  match deref h2 child with
                  | .error e => .error e
                  | .ok cd2 =>
                    let h3 := update h2 n (fun x => { x with children := cd2.children })
                    match adoptLoop n cd2.children h3 with
                    | .error e => .error e
                    | .ok h4 => .ok (update h4 child (fun x => { x with parent := none }))
          else .ok h
        | some p =>
          if nd.items.length = 0 then
            unlinkAndAscend (Node.rebalance fuel) h n nd.key n
          else
            match Node.childIndex h p n with
            | .error e => .error e
            | .ok ci =>
              let rightmerged := decide (ci = 0)
              match (if rightmerged then Node.nextSibling h n else Node.prevSibling h n) with
              | .error e => .error e
              | .ok none => .error .nilDeref
              | .ok (some target) =>
                match deref h target with
                | .error e => .error e
                | .ok td =>
                  if rightmerged then
                    let afterChildren : Except Fault Heap :=
                      if !nd.isLeaf then
                        let h1 := update h n (fun x => { x with children := x.children ++ td.children })
                        match deref h1 target with
                        | .error e => .error e
                        | .ok td1 => reparentLoop target n td1.children.length 0 td1.children h1
                      else .ok h
                    match afterChildren with
                    | .error e => .error e
                    | .ok h2 =>
                      match deref h2 target with
                      | .error e => .error e
                      | .ok td2 =>
                        let h3 := update h2 n (fun x => { x with items := x.items ++ td2.items })
                        match deref h3 target with
                        | .error e => .error e
                        | .ok td3 => unlinkAndAscend (Node.rebalance fuel) h3 n td3.key target
                  else
                    let afterChildren : Except Fault Heap :=
                      if !td.isLeaf then
                        let h1 := update h target
                          (fun x => { x with children := x.children ++ nd.children })
                        match deref h1 n with
                        | .error e => .error e
                        | .ok nd1 => reparentLoop n target nd1.children.length 0 nd1.children h1
                      else .ok h
                    match afterChildren with
                    | .error e => .error e
                    | .ok h2 =>
                      match deref h2 n with
                      | .error e => .error e
                      | .ok nd2 =>
                        let h3 := update h2 target (fun x => { x with items := x.items ++ nd2.items })
                        match deref h3 n with
                        | .error e => .error e
                        | .ok nd3 => unlinkAndAscend (Node.rebalance fuel) h3 n nd3.key n

/-! ## The two operations of `Btree` -/

/-- The recursion budget for one operation: no acyclic path of parent or child links
is longer than the number of nodes. -/
def budget (h : Heap) : Nat := h.length + 1

/-- Go `(*Btree).Insert`. The `root` field is never assigned by the program. Items are
values here: the `append` that in Go writes into an array shared with a sibling made by
`split` changes only the node itself. -/
def Btree.Insert (b : Btree) (key value : List Nat) : Except Fault Btree :=
  match b.root with
  | none => .error .nilDeref
  | some root =>
    match searchNode (budget b.heap) b.heap key root none with
    | .error e => .error e
    | .ok (node, _) =>
      match deref b.heap node with
      | .error e => .error e
      | .ok nd =>
        if nd.items.length = 0 then
          match inodes.insertAt nd.items 0 ⟨key, value⟩ with
          | .error e => .error e
          | .ok items => .ok { b with heap := update b.heap node (fun x => { x with items := items }) }
        else
          match inodes.search nd.items key with
          | (index, true) =>
            -- node.items[index].value = value
            .ok { b with heap := update b.heap node (fun x =>
              { x with items := x.items.modify (fun it => { it with value := value }) index.toNat }) }
          | (index, false) =>
            -- node.items = append(node.items, &inode{})
            let items1 := nd.items ++ [⟨[], []⟩]
            -- copy(node.items[index+1:], node.items[index:])
            if index < 0 then .error .sliceBounds
            else
              let items2 := shiftRight items1 index.toNat
              -- node.items[index] = &inode{key, value}
              let items3 := items2.set index.toNat ⟨key, value⟩
              let h1 := update b.heap node (fun x => { x with items := items3 })
              if items3.length > 4 then
                match Node.split (budget h1) h1 node (nd.children.length / 2) with
                | .error e => .error e
                | .ok h2 => .ok { b with heap := h2 }
              else .ok { b with heap := h1 }

/-- Go `(*Btree).Del`. -/
def Btree.Del (b : Btree) (key : List Nat) : Except Fault Btree :=
  match b.root with
  | none => .error .nilDeref
  | some root =>
    match searchNode (budget b.heap) b.heap key root (some false) with
    | .error e => .error e
    | .ok (node, exist) =>
      if exist ≠ some true then .ok b
      else
        match Node.del b.heap node key with
        | .error e => .error e
        | .ok h1 =>
          match Node.rebalance (budget h1) h1 node with
          | .error e => .error e
          | .ok h2 => .ok { b with heap := h2 }

/-- The initial tree: the root is a leaf with zero items. -/
def emptyTree : Btree :=
  { heap := [{ isLeaf := true, children := [], parent := none, key := [], items := [] }],
    root := some 0 }

/-- One call of the interface. -/
inductive Op where
  | insert (key value : List Nat)
  | del (key : List Nat)
  deriving DecidableEq, Repr

/-- Running one call. -/
def Op.run (b : Btree) : Op → Except Fault Btree
  | .insert k v => b.Insert k v
  | .del k => b.Del k

/-- Running calls one after the other; the first failure ends the run. -/
def runOps (b : Btree) : List Op → Except Fault Btree
  | [] => .ok b
  | op :: rest =>
    match op.run b with
    | .error e => .error e
    | .ok b1 => runOps b1 rest

/-! ## Observations used to state the properties -/

/-- The leaf that descending from the root for `k` reaches (`searchNode` from `b.root`,
with a flag variable as `Del` passes it). -/
def Btree.descend (b : Btree) (k : List Nat) : Except Fault Node :=
  match b.root with
  | none => .error .nilDeref
  | some r =>
    match searchNode (budget b.heap) b.heap k r (some false) with
    | .error e => .error e
    | .ok (leaf, _) => deref b.heap leaf

/-- The node the `root` field points to. -/
def Btree.rootNode (b : Btree) : Except Fault Node :=
  match b.root with
  | none => .error .nilDeref
  | some r => deref b.heap r

/-- The items of a node whose key is `k`. -/
def itemsWithKey (nd : Node) (k : List Nat) : List inode :=
  nd.items.filter (fun it => bytesEqual it.key k)

/-- The keys of a node's items are strictly ascending in byte order. -/
def strictlyAscending (items : List inode) : Prop :=
  items.Pairwise (fun x y => bytesCompare x.key y.key = -1)

instance (items : List inode) : Decidable (strictlyAscending items) := by
  unfold strictlyAscending; infer_instance

/-- Every key held at or below node `n`: the keys of its items and of the items of all
its descendants. -/
def keysBelow : Nat → Heap → Nat → List (List Nat)
  | 0, _, _ => []
  | fuel + 1, h, n =>
    match h[n]? with
    | none => []
    | some nd => nd.items.map inode.key ++ (nd.children.map (keysBelow fuel h)).flatten

/-- The well-formedness condition on one node: its items are strictly ascending, and if it
is internal it has as many items as children, the key of item `i` is the `key` field of
child `i`, the parent of every child is the node, and every key at or below child `i` is at
least the key of item `i` and below the key of item `i + 1`. -/
def wellFormedNode (h : Heap) (n : Nat) (nd : Node) : Bool :=
  decide (strictlyAscending nd.items) &&
  (nd.isLeaf ||
    (nd.items.length == nd.children.length &&
      (List.range nd.children.length).all (fun i =>
        match nd.items[i]?, nd.children[i]? with
        | some it, some c =>
          match h[c]? with
          | some cd =>
            cd.key == it.key && cd.parent == some n &&
            (keysBelow h.length h c).all (fun k =>
              decide (bytesCompare k it.key ≠ -1) &&
              (match nd.items[i + 1]? with
               | some nx => decide (bytesCompare k nx.key = -1)
               | none => true))
          | none => false
        | _, _ => false)))

/-- A tree is well formed when its root is a node without parent and every node of the
heap satisfies `wellFormedNode`. -/
def wellFormed (b : Btree) : Bool :=
  (match b.rootNode with
   | .ok r => r.parent == none
   | .error _ => false) &&
  (List.range b.heap.length).all (fun n =>
    match b.heap[n]? with
    | some nd => wellFormedNode b.heap n nd
    | none => false)

/-- The keys of the items of all leaves of the heap. -/
def leafKeys (b : Btree) : List (List Nat) :=
  ((b.heap.filter (fun nd => nd.isLeaf)).map (fun nd => nd.items.map inode.key)).flatten

/-! ## Example trees -/

/-- A leaf with the given parent, `key` field and item keys; the value of item `k` is `[k]`. -/
def leafOf (parent : Nat) (key : List Nat) (keys : List Nat) : Node :=
  { isLeaf := true, children := [], parent := some parent, key := key,
    items := keys.map (fun k => ⟨[k], [k]⟩) }

/-- A three-level tree over the keys a, e, f, m, n, p, q, t, u (bytes 97 ..). The root has
the internal children 1 (separator a) and 2 (separator m); node 1 has the leaves 3 and 4,
node 2 has the three leaves 5, 6 and 7. -/
def threeLevelTree : Btree :=
  { root := some 0,
    heap := [
      { isLeaf := false, children := [1, 2], parent := none, key := [],
        items := [⟨[97], []⟩, ⟨[109], []⟩] },
      { isLeaf := false, children := [3, 4], parent := some 0, key := [97],
        items := [⟨[97], []⟩, ⟨[101], []⟩] },
      { isLeaf := false, children := [5, 6, 7], parent := some 0, key := [109],
        items := [⟨[109], []⟩, ⟨[112], []⟩, ⟨[116], []⟩] },
      leafOf 1 [97] [97],
      leafOf 1 [101] [101, 102],
      leafOf 2 [109] [109, 110],
      leafOf 2 [112] [112, 113],
      leafOf 2 [116] [116, 117]] }

/-- A two-level tree: the root has the separators a, c, e; its first leaf, registered
under a, holds only b; the other leaves hold c, d and e, f. -/
def staleSeparatorTree : Btree :=
  { root := some 0,
    heap := [
      { isLeaf := false, children := [1, 2, 3], parent := none, key := [],
        items := [⟨[97], []⟩, ⟨[99], []⟩, ⟨[101], []⟩] },
      leafOf 0 [97] [98],
      leafOf 0 [99] [99, 100],
      leafOf 0 [101] [101, 102]] }

/-- The calls Insert(a, 1), Insert(b, 2), Insert(c, 3), Insert(d, 4), Insert(e, 5). -/
def insertAtoE : List Op :=
  [.insert [97] [1], .insert [98] [2], .insert [99] [3], .insert [100] [4], .insert [101] [5]]

/-! ## The statements of `split`, one by one

`Node.split` above is the whole function. To reason about it, its body is cut into the
stages below; `split_succ` shows that they compose to `Node.split`. -/

/-- First statement of `split`: `if n.parent == nil { n.parent = &Node{children: []*Node{n}} }`,
for a node `n` whose record is `nd`. -/
def splitParent (h : Heap) (n : Nat) (nd : Node) : Heap :=
  match nd.parent with
  | some _ => h
  | none =>
    update (h ++ [{ isLeaf := false, children := [n], parent := none, key := [], items := [] }])
      n (fun x => { x with parent := some h.length })

/-- The allocation `next := &Node{isLeaf: n.isLeaf, parent: n.parent}`; `next` is the index
`h1.length`. -/
def splitAlloc (h1 : Heap) (nd1 : Node) (p : Nat) : Heap :=
  h1 ++ [{ isLeaf := nd1.isLeaf, children := [], parent := some p, key := [], items := [] }]

/-- The registration `next.parent.children = append(next.parent.children, next)`. -/
def splitRegister (h1 : Heap) (nd1 : Node) (p : Nat) : Heap :=
  update (splitAlloc h1 nd1 p) p (fun x => { x with children := x.children ++ [h1.length] })

/-- The two statements `next.items = n.items[splitIndex:]; n.items = n.items[:splitIndex]`,
where `nd3` is the record of `n`. -/
def splitItems (h3 : Heap) (n next i : Nat) (nd3 : Node) : Heap :=
  update (update h3 next (fun x => { x with items := nd3.items.drop i }))
    n (fun x => { x with items := x.items.take i })

/-- The block `if len(n.children) > 0 { for ... { ... }; n.children = n.children[:splitIndex] }`,
where `nd5` is the record of `n`. -/
def splitChildren (h5 : Heap) (n next i : Nat) (nd5 : Node) : Except Fault Heap :=
  if nd5.children.length > 0 then
    match splitLoop n next nd5.children.length i h5 with
    | .error e => .error e
    | .ok h6 =>
      match deref h6 n with
      | .error e => .error e
      | .ok nd6 =>
        if i > nd6.children.length then .error .pastLength
        else .ok (update h6 n (fun x => { x with children := x.children.take i }))
  else .ok h5

/-- The last statement of `split`:
`if n.parent != nil && len(n.parent.children) > 5 { n.parent.split(len(n.parent.children) / 2) }`,
with the recursive call passed as `again`. -/
def splitAscend (again : Heap → Nat → Nat → Except Fault Heap) (h7 : Heap) (n : Nat) :
    Except Fault Heap :=
  match deref h7 n with
  | .error e => .error e
  | .ok nd7 =>
    match nd7.parent with
    | none => .ok h7
    | some p7 =>
      match deref h7 p7 with
      | .error e => .error e
      | .ok pd7 =>
        if pd7.children.length > 5 then again h7 p7 (pd7.children.length / 2) else .ok h7

/-- Every node of `h` is still there in `h2`, with the same leaf flag. -/
def LeafKept (h h2 : Heap) : Prop :=
  ∀ (q : Nat) (nd : Node), h[q]? = some nd →
    ∃ nd2 : Node, h2[q]? = some nd2 ∧ nd2.isLeaf = nd.isLeaf

/-! ## More example heaps -/

/-- Separator items with the given one-byte keys and empty values. -/
def sepItems (keys : List Nat) : List inode := keys.map (fun k => ⟨[k], []⟩)

/-- A tree whose root is a leaf holding a and c. -/
def twoItemRoot : Btree :=
  { root := some 0,
    heap := [{ isLeaf := true, children := [], parent := none, key := [],
               items := [⟨[97], [1]⟩, ⟨[99], [3]⟩] }] }

/-- An internal node (0) with five items and five leaves; leaf 1 holds a and b. -/
def fullParentHeap : Heap :=
  [{ isLeaf := false, children := [1, 2, 3, 4, 5], parent := none, key := [],
     items := sepItems [97, 99, 101, 103, 105] },
   leafOf 0 [97] [97, 98], leafOf 0 [99] [99], leafOf 0 [101] [101], leafOf 0 [103] [103],
   leafOf 0 [105] [105]]

/-- An internal node (0) with six items and the six leaves 1 .. 6 as children. -/
def sixChildrenHeap : Heap :=
  [{ isLeaf := false, children := [1, 2, 3, 4, 5, 6], parent := none, key := [],
     items := sepItems [97, 99, 101, 103, 105, 107] },
   leafOf 0 [97] [97], leafOf 0 [99] [99], leafOf 0 [101] [101], leafOf 0 [103] [103],
   leafOf 0 [105] [105], leafOf 0 [107] [107]]

/-- A root (0) with three leaves; leaf 1 holds exactly one item, leaves 2 and 3 hold two. -/
def oneItemLeafHeap : Heap :=
  [{ isLeaf := false, children := [1, 2, 3], parent := none, key := [],
     items := sepItems [97, 99, 101] },
   leafOf 0 [97] [97], leafOf 0 [99] [99, 100], leafOf 0 [101] [101, 102]]

/-- A root (0) without parent, internal, with zero items and the single child 1, a leaf
holding a and b. -/
def emptyRootHeap : Heap :=
  [{ isLeaf := false, children := [1], parent := none, key := [], items := [] },
   leafOf 0 [97] [97, 98]]

/-- The same as `emptyRootHeap` with the one item a in the root. -/
def oneItemRootHeap : Heap :=
  [{ isLeaf := false, children := [1], parent := none, key := [], items := sepItems [97] },
   leafOf 0 [97] [97, 98]]

/-- A root (0) with the internal children 1, 2, 3. Node 1 is the first child and
underflows (one item, one child, leaf 4); its right-hand sibling 2 has the three
children 5, 6, 7, whose parent is 2; node 3 has the leaves 8 and 9. -/
def mergeHeap : Heap :=
  [{ isLeaf := false, children := [1, 2, 3], parent := none, key := [],
     items := sepItems [97, 109, 120] },
   { isLeaf := false, children := [4], parent := some 0, key := [97], items := sepItems [97] },
   { isLeaf := false, children := [5, 6, 7], parent := some 0, key := [109],
     items := sepItems [109, 112, 116] },
   { isLeaf := false, children := [8, 9], parent := some 0, key := [120],
     items := sepItems [120, 121] },
   leafOf 1 [97] [97, 98], leafOf 2 [109] [109], leafOf 2 [112] [112], leafOf 2 [116] [116],
   leafOf 3 [120] [120], leafOf 3 [121] [121]]

/-- A tree whose root (0) is a leaf holding the single item a and whose parent link points
to a node (1) with five children and no items: the root of a tree that has split four
times and then received one key. -/
def crowdedLeafRootTree : Btree :=
  { root := some 0,
    heap := [
      { isLeaf := true, children := [], parent := some 1, key := [],
        items := [⟨[97], [1]⟩] },
      { isLeaf := false, children := [0, 2, 3, 4, 5], parent := none, key := [], items := [] },
      leafOf 1 [] [102, 103], leafOf 1 [] [104, 105], leafOf 1 [] [106, 107],
      leafOf 1 [] [108, 109]] }

/-- A tree whose root is a leaf without parent holding a, b, c, d. -/
def fourItemRoot : Btree :=
  { root := some 0,
    heap := [{ isLeaf := true, children := [], parent := none, key := [],
               items := [⟨[97], [1]⟩, ⟨[98], [2]⟩, ⟨[99], [3]⟩, ⟨[100], [4]⟩] }] }

/-- The tree whose heap is `twoLeafHeap` and whose root is node 0. -/
def twoLeafTree : Btree :=
  { root := some 0,
    heap := [{ isLeaf := false, children := [1, 2], parent := none, key := [],
               items := sepItems [97, 99] },
             leafOf 0 [97] [97, 98], leafOf 0 [99] [99, 100]] }

/-- What the children loop of `split` leaves alone, for the loop on node `n` with sibling
`next` and the children `cs`: the heap keeps its length, every node keeps its items and
its leaf flag, every node outside `cs` keeps its parent, and every node other than `n`
and `next` keeps its children. -/
def Frame (cs : List Nat) (n next : Nat) (h h2 : Heap) : Prop :=
  h2.length = h.length ∧
  ∀ (q : Nat) (x : Node), h[q]? = some x →
    ∃ x2 : Node, h2[q]? = some x2 ∧ x2.items = x.items ∧ x2.isLeaf = x.isLeaf ∧
      (q ∉ cs → x2.parent = x.parent) ∧ (q ≠ n → q ≠ next → x2.children = x.children)

/-! ## Descent in a well-formed tree -/

/-- A chain of child links from node `n` down to the leaf `l`. The list holds the
internal nodes on the way, `n` first; it is empty when `n` is the leaf itself. -/
inductive PathTo (h : Heap) : Nat → List Nat → Nat → Prop where
  | leaf (n : Nat) (nd : Node) : h[n]? = some nd → nd.isLeaf = true → PathTo h n [] n
  | step (n : Nat) (nd : Node) (c : Nat) (path : List Nat) (l : Nat) :
      h[n]? = some nd → nd.isLeaf = false → c ∈ nd.children → PathTo h c path l →
      PathTo h n (n :: path) l

/-- The nodes of the tree below `root`: the root and the children of its internal nodes. -/
inductive InTree (h : Heap) (root : Nat) : Nat → Prop where
  | root : InTree h root root
  | child (m : Nat) (nd : Node) (c : Nat) :
      InTree h root m → h[m]? = some nd → nd.isLeaf = false → c ∈ nd.children →
      InTree h root c

/-- Node `l` holds an item with key `k`. -/
def holdsKey (h : Heap) (l : Nat) (k : List Nat) : Prop :=
  ∃ (nd : Node) (it : inode), h[l]? = some nd ∧ it ∈ nd.items ∧ it.key = k

/-- Node `m` has an item with key `k`. -/
def hasSeparator (h : Heap) (k : List Nat) (m : Nat) : Bool :=
  match h[m]? with
  | some nd => nd.items.any (fun it => bytesEqual it.key k)
  | none => false

/-- The condition on one internal node: it has at least one child and as many items as
children, its item keys are strictly ascending, and every key held by a leaf beneath
child `i` is at least the key of item `i` and, when item `i + 1` exists, strictly below
the key of item `i + 1`. -/
def Routed (h : Heap) (nd : Node) : Prop :=
  nd.children ≠ [] ∧ nd.items.length = nd.children.length ∧ strictlyAscending nd.items ∧
  ∀ (i c : Nat) (it : inode), nd.children[i]? = some c → nd.items[i]? = some it →
    ∀ (path : List Nat) (l : Nat) (k : List Nat), PathTo h c path l → holdsKey h l k →
      bytesCompare k it.key ≠ -1 ∧
      ∀ nx : inode, nd.items[i + 1]? = some nx → bytesCompare k nx.key = -1

/-- A tree is well routed when every internal node of it satisfies `Routed`. -/
def WellRouted (h : Heap) (root : Nat) : Prop :=
  ∀ (m : Nat) (nd : Node), InTree h root m → h[m]? = some nd → nd.isLeaf = false →
    Routed h nd

/-- A root (0) with the separators a, c over the leaves 1 (a, b) and 2 (c, d). -/
def twoLeafHeap : Heap :=
  [{ isLeaf := false, children := [1, 2], parent := none, key := [],
     items := sepItems [97, 99] },
   leafOf 0 [97] [97, 98], leafOf 0 [99] [99, 100]]

/-! ## The model of `sort.Search` always has enough steps -/

/-- Once the step bound covers the width of the interval, more steps change nothing:
the loop of `sort.Search` has ended. In `sortSearch` the bound is the width. -/
theorem sortSearchLoop_fuel (f : Nat → Bool) :
    ∀ (fuel extra i j : Nat), j - i ≤ fuel →
      sortSearchLoop f (fuel + extra) i j = sortSearchLoop f fuel i j := by
  intro fuel
  induction fuel with
  | zero =>
    intro extra i j hle
    cases extra with
    | zero => rfl
    | succ e =>
      have hij : ¬ i < j := by omega
      simp [sortSearchLoop, hij]
  | succ n ih =>
    intro extra i j hle
    have hstep : n + 1 + extra = (n + extra) + 1 := by omega
    rw [hstep]
    unfold sortSearchLoop
    by_cases hij : i < j
    · have h1 : j - ((i + j) / 2 + 1) ≤ n := by omega
      have h2 : (i + j) / 2 - i ≤ n := by omega
      simp only [hij, if_true]
      rw [ih extra _ _ h1, ih extra _ _ h2]
    · simp [hij]

/-! ## The claims C1 to C10, evaluated on the code -/

/-- C1 fails on the code. After Insert(a, 1), ..., Insert(e, 5) on the empty tree every
call has returned and the `root` field still points to node 0. Descending from the root
for e stops at that node, which now holds no item; the pair (e, 5) is in the sibling that
`split` created (node 2), which no descent from the root reaches. -/
theorem insert_fifth_key_not_found_by_descent :
    ∃ b leaf, runOps emptyTree insertAtoE = .ok b ∧ b.root = some 0 ∧
      searchNode (budget b.heap) b.heap [101] 0 none = .ok (0, none) ∧
      b.descend [101] = .ok leaf ∧ leaf.items = [] ∧
      (b.heap[2]?).map Node.items =
        some [⟨[98], [2]⟩, ⟨[99], [3]⟩, ⟨[100], [4]⟩, ⟨[101], [5]⟩, ⟨[97], [1]⟩] :=
  ⟨_, _, rfl, rfl, rfl, rfl, rfl, rfl⟩

/-- C2 fails on the code. On the tree holding a, Insert(b, 2) followed by Insert(b, 3)
leaves two items with key b (values 2 and 3) and raises the item count from 2 to 3. On
the tree built by Insert c, e, d, the calls Insert(e, 11); Insert(e, 12) leave two items
with key e, one of them with the value 5 of the first insertion of e. -/
theorem insert_same_key_twice_keeps_two_items :
    (∃ b1 b2 r1 r2, runOps emptyTree [.insert [97] [1], .insert [98] [2]] = .ok b1 ∧
      b1.Insert [98] [3] = .ok b2 ∧ b1.rootNode = .ok r1 ∧ b2.rootNode = .ok r2 ∧
      r1.items = [⟨[98], [2]⟩, ⟨[97], [1]⟩] ∧
      r2.items = [⟨[98], [2]⟩, ⟨[98], [3]⟩, ⟨[97], [1]⟩] ∧
      (itemsWithKey r2 [98]).length = 2) ∧
    (∃ b r, runOps emptyTree [.insert [99] [3], .insert [101] [5], .insert [100] [4],
        .insert [101] [11], .insert [101] [12]] = .ok b ∧ b.rootNode = .ok r ∧
      r.items = [⟨[101], [5]⟩, ⟨[100], [4]⟩, ⟨[101], [12]⟩, ⟨[99], [3]⟩] ∧
      (itemsWithKey r [101]).length = 2) :=
  ⟨⟨_, _, _, _, rfl, rfl, rfl, rfl, rfl, rfl, rfl⟩, ⟨_, _, rfl, rfl, rfl, rfl⟩⟩

/-- C3 fails on the code. After Insert(a, 1) and Insert(b, 2) on the empty tree the
items of the root are b, a in this order: they are not ascending. -/
theorem insert_a_then_b_breaks_order :
    ∃ b r, runOps emptyTree [.insert [97] [1], .insert [98] [2]] = .ok b ∧
      b.rootNode = .ok r ∧ r.items = [⟨[98], [2]⟩, ⟨[97], [1]⟩] ∧
      ¬ strictlyAscending r.items :=
  ⟨_, _, rfl, rfl, rfl, by decide⟩

/-- C4 fails on the code. Insert(b, 2) on the empty tree returns; on the resulting tree
`inodes.search` answers index -1 for a, and Insert(a, 1) stops with a slice bounds
failure at `node.items[index:]`. -/
theorem insert_smaller_key_fails :
    ∃ b r, emptyTree.Insert [98] [2] = .ok b ∧ b.rootNode = .ok r ∧
      r.items = [⟨[98], [2]⟩] ∧ inodes.search r.items [97] = (-1, false) ∧
      b.Insert [97] [1] = .error .sliceBounds :=
  ⟨_, _, rfl, rfl, rfl, rfl, rfl⟩

/-- C5 fails on the code. After Insert(a, 1) on the empty tree the leaf reached by
descending for a holds a, and Del(a) returns the same tree: the item is still there. -/
theorem del_leaves_key_in_root_leaf :
    ∃ b leaf, emptyTree.Insert [97] [1] = .ok b ∧ b.descend [97] = .ok leaf ∧
      leaf.items = [⟨[97], [1]⟩] ∧ b.Del [97] = .ok b :=
  ⟨_, _, rfl, rfl, rfl, rfl⟩

/-- C6 fails on the code. `threeLevelTree` is well formed and descending for t reaches
the leaf holding t and u. Del(a) empties the first leaf, the first internal child
underflows and merges its right sibling, which has three children; the merge loop passes
over the second of them and removes the third from the merged node. After Del(a) the
root has four items and the three children 4, 5, 6, leaf 7 is no longer a child of any
node, and descending for t fails with an index out of range. -/
theorem del_merge_drops_third_child :
    wellFormed threeLevelTree = true ∧
    (∃ leaf, threeLevelTree.descend [116] = .ok leaf ∧
      leaf.items = [⟨[116], [116]⟩, ⟨[117], [117]⟩]) ∧
    ∃ b r, threeLevelTree.Del [97] = .ok b ∧ b.rootNode = .ok r ∧
      r.items.map inode.key = [[101], [109], [112], [116]] ∧ r.children = [4, 5, 6] ∧
      (b.heap.all fun nd => !nd.children.contains 7) = true ∧
      b.descend [116] = .error .indexOutOfRange :=
  ⟨rfl, ⟨_, rfl, rfl⟩, _, _, rfl, rfl, rfl, rfl, rfl, rfl⟩

/-- C7 fails on the code. No leaf of `staleSeparatorTree` holds a, yet Del(a) changes the
tree: the first leaf absorbs the items of the second (b, c, d), the separator c leaves the
root and the second leaf is unlinked from the root's children. -/
theorem del_missing_key_merges_leaves :
    [97] ∉ leafKeys staleSeparatorTree ∧
    ∃ b r l, staleSeparatorTree.Del [97] = .ok b ∧ b ≠ staleSeparatorTree ∧
      b.rootNode = .ok r ∧ r.items.map inode.key = [[97], [101]] ∧ r.children = [1, 3] ∧
      deref b.heap 1 = .ok l ∧ l.items.map inode.key = [[98], [99], [100]] :=
  ⟨by decide, _, _, _, rfl, by decide, rfl, rfl, rfl, rfl, rfl⟩

/-- C8 fails on the code. For N = 1: after Insert(a, 1) and Del(a) on the empty tree the
root is a leaf that still holds (a, 1); the tree is not back in its initial state. -/
theorem insert_then_del_keeps_item :
    ∃ b r, runOps emptyTree [.insert [97] [1], .del [97]] = .ok b ∧ b.rootNode = .ok r ∧
      r.isLeaf = true ∧ r.items = [⟨[97], [1]⟩] ∧ b ≠ emptyTree :=
  ⟨_, _, rfl, rfl, rfl, rfl, by decide⟩

/-- C9 fails on the code. After Insert(a) ... Insert(e) on the empty tree the `root` field
is what it was: it points to the old leaf (node 0), which is still a leaf, has no children
and no items, and whose parent is the new internal node 1. That node has the two children
0 and 2 but is not the tree's root. -/
theorem root_field_still_the_old_leaf :
    ∃ b r p, runOps emptyTree insertAtoE = .ok b ∧ b.root = emptyTree.root ∧
      b.rootNode = .ok r ∧ r.isLeaf = true ∧ r.children = [] ∧ r.items = [] ∧
      r.parent = some 1 ∧ deref b.heap 1 = .ok p ∧ p.isLeaf = false ∧
      p.children = [0, 2] ∧ p.parent = none :=
  ⟨_, _, _, rfl, rfl, rfl, rfl, rfl, rfl, rfl, rfl, rfl, rfl, rfl⟩

/-- C10 fails on the code. The fifth Insert brings the root leaf to 5 items and calls
`split` with `len(node.children) / 2`, which is 0 for a leaf. When Insert returns the
original leaf (node 0) is empty and the new sibling (node 2) holds all 5 items. -/
theorem split_at_zero_moves_all_items :
    ∃ b4 r4 b5 leaf sib, runOps emptyTree (insertAtoE.take 4) = .ok b4 ∧
      b4.rootNode = .ok r4 ∧ r4.items.length = 4 ∧ r4.children.length / 2 = 0 ∧
      b4.Insert [101] [5] = .ok b5 ∧
      deref b5.heap 0 = .ok leaf ∧ leaf.items.length = 0 ∧
      deref b5.heap 2 = .ok sib ∧ sib.isLeaf = true ∧ sib.items.length = 5 :=
  ⟨_, _, _, _, _, rfl, rfl, rfl, rfl, rfl, rfl, rfl, rfl, rfl, rfl⟩

/-! ## Reading and writing the heap -/

theorem deref_ok_iff {h : Heap} {p : Nat} {nd : Node} : deref h p = .ok nd ↔ h[p]? = some nd := by
  unfold deref
  cases hp : h[p]? with
  | none => simp
  | some x => simp

theorem deref_of_get {h : Heap} {p : Nat} {nd : Node} (hp : h[p]? = some nd) :
    deref h p = .ok nd := deref_ok_iff.mpr hp

theorem length_update (h : Heap) (p : Nat) (f : Node → Node) :
    (update h p f).length = h.length := by
  unfold update
  cases h[p]? <;> simp

theorem get_update (h : Heap) (p q : Nat) (f : Node → Node) :
    (update h p f)[q]? = if q = p then (h[q]?).map f else h[q]? := by
  unfold update
  by_cases hqp : q = p
  · subst hqp
    cases hq : h[q]? with
    | none => simp [hq]
    | some x =>
      have hlt : q < h.length := (List.getElem?_eq_some.mp hq).1
      simp [hq, List.getElem?_set_self hlt]
  · cases hp : h[p]? with
    | none => simp [hqp]
    | some x => simp [hqp, List.getElem?_set_ne (Ne.symm hqp)]

theorem get_update_self {h : Heap} {p : Nat} {nd : Node} (f : Node → Node)
    (hp : h[p]? = some nd) : (update h p f)[p]? = some (f nd) := by
  simp [get_update, hp]

theorem get_update_ne {h : Heap} {p q : Nat} (f : Node → Node) (hq : q ≠ p) :
    (update h p f)[q]? = h[q]? := by
  simp [get_update, hq]

/-! ## Nodes keep their leaf flag -/

theorem leafKept_refl (h : Heap) : LeafKept h h := fun _ nd hq => ⟨nd, hq, rfl⟩

theorem leafKept_trans {a b c : Heap} (hab : LeafKept a b) (hbc : LeafKept b c) :
    LeafKept a c := by
  intro q nd hq
  obtain ⟨nd1, h1, e1⟩ := hab q nd hq
  obtain ⟨nd2, h2, e2⟩ := hbc q nd1 h1
  exact ⟨nd2, h2, e2.trans e1⟩

theorem leafKept_update (h : Heap) (p : Nat) (f : Node → Node)
    (hf : ∀ x, (f x).isLeaf = x.isLeaf) : LeafKept h (update h p f) := by
  intro q nd hq
  by_cases hqp : q = p
  · subst hqp
    exact ⟨f nd, get_update_self f hq, hf nd⟩
  · exact ⟨nd, by rw [get_update_ne f hqp]; exact hq, rfl⟩

theorem leafKept_append (h : Heap) (extra : List Node) : LeafKept h (h ++ extra) := by
  intro q nd hq
  have hlt : q < h.length := (List.getElem?_eq_some.mp hq).1
  exact ⟨nd, by rw [List.getElem?_append_left hlt]; exact hq, rfl⟩

/-- Writing a node without touching its leaf flag, after any change that keeps the flags. -/
theorem leafKept_step {a b : Heap} (p : Nat) (f : Node → Node)
    (hf : ∀ x, (f x).isLeaf = x.isLeaf) (hab : LeafKept a b) : LeafKept a (update b p f) :=
  leafKept_trans hab (leafKept_update b p f hf)

theorem splitLoop_leafKept (n next : Nat) :
    ∀ (fuel i : Nat) (h h2 : Heap), splitLoop n next fuel i h = .ok h2 → LeafKept h h2 := by
  intro fuel
  induction fuel with
  | zero =>
    intro i h h2 hs
    simp [splitLoop] at hs
    subst hs
    exact leafKept_refl _
  | succ f ih =>
    intro i h h2 hs
    unfold splitLoop at hs
    split at hs
    · cases hs
    · split at hs
      · cases hs
        exact leafKept_refl _
      · split at hs
        · cases hs
        · have key := ih _ _ _ hs
          refine leafKept_trans ?_ key
          apply leafKept_step
          · intro x; rfl
          apply leafKept_step
          · intro x; rfl
          apply leafKept_step
          · intro x; rfl
          exact leafKept_refl _

/-- The body of `split`, stage by stage. -/
theorem split_succ (f : Nat) (h : Heap) (n i : Nat) :
    Node.split (f + 1) h n i =
      match deref h n with
      | .error e => .error e
      | .ok nd =>
        match deref (splitParent h n nd) n with
        | .error e => .error e
        | .ok nd1 =>
          match nd1.parent with
          | none => .error .nilDeref
          | some p =>
            match deref (splitAlloc (splitParent h n nd) nd1 p) p with
            | .error e => .error e
            | .ok _ =>
              match deref (splitRegister (splitParent h n nd) nd1 p) n with
              | .error e => .error e
              | .ok nd3 =>
                if i > nd3.items.length then .error .sliceBounds
                else
                  match deref (splitItems (splitRegister (splitParent h n nd) nd1 p) n
                      (splitParent h n nd).length i nd3) n with
                  | .error e => .error e
                  | .ok nd5 =>
                    match splitChildren (splitItems (splitRegister (splitParent h n nd) nd1 p) n
                        (splitParent h n nd).length i nd3) n (splitParent h n nd).length i nd5 with
                    | .error e => .error e
                    | .ok h7 => splitAscend (Node.split f) h7 n := by
  rfl

theorem splitParent_leafKept (h : Heap) (n : Nat) (nd : Node) :
    LeafKept h (splitParent h n nd) := by
  unfold splitParent
  split
  · exact leafKept_refl _
  · exact leafKept_step _ _ (fun _ => rfl) (leafKept_append _ _)

theorem splitRegister_leafKept (h1 : Heap) (nd1 : Node) (p : Nat) :
    LeafKept h1 (splitRegister h1 nd1 p) :=
  leafKept_step _ _ (fun _ => rfl) (leafKept_append _ _)

theorem splitItems_leafKept (h3 : Heap) (n next i : Nat) (nd3 : Node) :
    LeafKept h3 (splitItems h3 n next i nd3) :=
  leafKept_step _ _ (fun _ => rfl) (leafKept_step _ _ (fun _ => rfl) (leafKept_refl _))

theorem splitChildren_leafKept (h5 : Heap) (n next i : Nat) (nd5 : Node) (h7 : Heap)
    (hs : splitChildren h5 n next i nd5 = .ok h7) : LeafKept h5 h7 := by
  unfold splitChildren at hs
  split at hs
  · split at hs
    · cases hs
    · rename_i h6 hloop
      split at hs
      · cases hs
      · split at hs
        · cases hs
        · cases hs
          exact leafKept_step _ _ (fun _ => rfl) (splitLoop_leafKept _ _ _ _ _ _ hloop)
  · cases hs
    exact leafKept_refl _

theorem splitAscend_leafKept (again : Heap → Nat → Nat → Except Fault Heap)
    (hagain : ∀ (h : Heap) (n i : Nat) (h2 : Heap), again h n i = .ok h2 → LeafKept h h2)
    (h7 : Heap) (n : Nat) (h8 : Heap) (hs : splitAscend again h7 n = .ok h8) :
    LeafKept h7 h8 := by
  unfold splitAscend at hs
  split at hs
  · cases hs
  · split at hs
    · cases hs
      exact leafKept_refl _
    · split at hs
      · cases hs
      · split at hs
        · exact hagain _ _ _ _ hs
        · cases hs
          exact leafKept_refl _

/-- `split` keeps every node it finds and never changes a leaf flag. -/
theorem split_leafKept :
    ∀ (fuel : Nat) (h : Heap) (n i : Nat) (h2 : Heap),
      Node.split fuel h n i = .ok h2 → LeafKept h h2 := by
  intro fuel
  induction fuel with
  | zero =>
    intro h n i h2 hs
    simp [Node.split] at hs
  | succ f ih =>
    intro h n i h2 hs
    rw [split_succ] at hs
    split at hs
    · cases hs
    · split at hs
      · cases hs
      · split at hs
        · cases hs
        · split at hs
          · cases hs
          · split at hs
            · cases hs
            · split at hs
              · cases hs
              · split at hs
                · cases hs
                · split at hs
                  · cases hs
                  · rename_i h7 hchildren
                    exact leafKept_trans (splitParent_leafKept _ _ _)
                      (leafKept_trans (splitRegister_leafKept _ _ _)
                        (leafKept_trans (splitItems_leafKept _ _ _ _ _)
                          (leafKept_trans (splitChildren_leafKept _ _ _ _ _ _ hchildren)
                            (splitAscend_leafKept _ ih _ _ _ hs))))


/-! ## `Insert` and `Del` on a tree whose root is a leaf -/

/-- `Insert` never assigns the `root` field, keeps every node and never changes a
leaf flag. -/
theorem insert_leafKept (b b2 : Btree) (k v : List Nat) (hs : b.Insert k v = .ok b2) :
    b2.root = b.root ∧ LeafKept b.heap b2.heap := by
  unfold Btree.Insert at hs
  split at hs
  · cases hs
  · split at hs
    · cases hs
    · split at hs
      · cases hs
      · split at hs
        · split at hs
          · cases hs
          · cases hs
            exact ⟨rfl, leafKept_update _ _ _ (fun _ => rfl)⟩
        · split at hs
          · cases hs
            exact ⟨rfl, leafKept_update _ _ _ (fun _ => rfl)⟩
          · split at hs
            · cases hs
            · dsimp only at hs
              split at hs
              · split at hs
                · cases hs
                · rename_i h2 hsplit
                  cases hs
                  have hk := split_leafKept _ _ _ _ _ hsplit
                  refine ⟨rfl, leafKept_trans ?_ hk⟩
                  exact leafKept_update _ _ _ (fun _ => rfl)
              · cases hs
                exact ⟨rfl, leafKept_update _ _ _ (fun _ => rfl)⟩

/-- On a tree whose root is a leaf, `Del` returns the tree as it is: `searchNode` returns
the root at once and the flag stays `false`. -/
theorem del_of_leaf_root (b : Btree) (r : Nat) (nd : Node) (k : List Nat)
    (hr : b.root = some r) (hnd : b.heap[r]? = some nd) (hleaf : nd.isLeaf = true) :
    b.Del k = .ok b := by
  unfold Btree.Del
  simp [hr, budget, searchNode, deref_of_get hnd, hleaf]

/-- The root is a leaf after every run of calls that starts from a tree whose root is a
leaf, and the `root` field is the same. -/
theorem runOps_leaf_root :
    ∀ (ops : List Op) (b b2 : Btree) (r : Nat) (nd : Node),
      b.root = some r → b.heap[r]? = some nd → nd.isLeaf = true → runOps b ops = .ok b2 →
      ∃ nd2 : Node, b2.root = some r ∧ b2.heap[r]? = some nd2 ∧ nd2.isLeaf = true := by
  intro ops
  induction ops with
  | nil =>
    intro b b2 r nd hr hnd hleaf hrun
    simp [runOps] at hrun
    subst hrun
    exact ⟨nd, hr, hnd, hleaf⟩
  | cons op rest ih =>
    intro b b2 r nd hr hnd hleaf hrun
    unfold runOps at hrun
    split at hrun
    · cases hrun
    · rename_i b1 hop
      cases op with
      | insert key value =>
        obtain ⟨hroot, hkept⟩ := insert_leafKept b b1 key value hop
        obtain ⟨nd1, hnd1, hleaf1⟩ := hkept r nd hnd
        exact ih b1 b2 r nd1 (hroot.trans hr) hnd1 (hleaf1.trans hleaf) hrun
      | del key =>
        have hdel : b.Del key = .ok b := del_of_leaf_root b r nd key hr hnd hleaf
        have hb1 : b1 = b := by
          have hop2 : b.Del key = .ok b1 := hop
          rw [hdel] at hop2
          cases hop2
          rfl
        subst hb1
        exact ih b1 b2 r nd hr hnd hleaf hrun


/-! ## The root collapse of `rebalance` -/

/-- The adoption loop sets the parent of every listed node to `n` and touches nothing
else, when the listed nodes are nodes of the heap. -/
theorem adoptLoop_spec (n : Nat) :
    ∀ (cs : List Nat) (h : Heap), (∀ cc ∈ cs, cc < h.length) →
      ∃ h2, adoptLoop n cs h = .ok h2 ∧ h2.length = h.length ∧
        ∀ q, h2[q]? =
          if q ∈ cs then (h[q]?).map (fun x => { x with parent := some n }) else h[q]? := by
  intro cs
  induction cs with
  | nil =>
    intro h _
    exact ⟨h, rfl, rfl, fun q => by simp⟩
  | cons cc rest ih =>
    intro h hvalid
    have hcc : cc < h.length := hvalid cc (List.mem_cons_self _ _)
    obtain ⟨x, hx⟩ : ∃ x, h[cc]? = some x := ⟨h[cc], List.getElem?_eq_getElem hcc⟩
    have hrest : ∀ c ∈ rest, c < (update h cc (fun x => { x with parent := some n })).length := by
      intro c hc
      rw [length_update]
      exact hvalid c (List.mem_cons_of_mem _ hc)
    obtain ⟨h2, hrun, hlen, hget⟩ := ih _ hrest
    refine ⟨h2, ?_, ?_, ?_⟩
    · simp only [adoptLoop, deref_of_get hx]
      exact hrun
    · rw [hlen, length_update]
    · intro q
      rw [hget q, get_update]
      by_cases hq : q = cc
      · subst hq
        by_cases hqr : q ∈ rest
        · simp [hqr, hx]
        · simp [hqr, hx]
      · by_cases hqr : q ∈ rest
        · simp [hqr, hq]
        · simp [hqr, hq]


/-! ## `bytes.Compare` is a strict total order -/

theorem bytesCompare_values (a b : List Nat) :
    bytesCompare a b = -1 ∨ bytesCompare a b = 0 ∨ bytesCompare a b = 1 := by
  induction a generalizing b with
  | nil => cases b <;> simp [bytesCompare]
  | cons x xs ih =>
    cases b with
    | nil => simp [bytesCompare]
    | cons y ys =>
      simp only [bytesCompare]
      split_ifs
      · simp
      · simp
      · exact ih ys

theorem bytesCompare_eq_zero (a b : List Nat) : bytesCompare a b = 0 ↔ a = b := by
  induction a generalizing b with
  | nil => cases b <;> simp [bytesCompare]
  | cons x xs ih =>
    cases b with
    | nil => simp [bytesCompare]
    | cons y ys =>
      simp only [bytesCompare]
      split_ifs with h1 h2
      · constructor
        · intro h; simp at h
        · intro h; simp at h; omega
      · constructor
        · intro h; simp at h
        · intro h; simp at h; omega
      · have hxy : x = y := by omega
        simp [ih ys, hxy]

theorem bytesCompare_swap (a b : List Nat) : bytesCompare a b = 1 ↔ bytesCompare b a = -1 := by
  induction a generalizing b with
  | nil => cases b <;> simp [bytesCompare]
  | cons x xs ih =>
    cases b with
    | nil => simp [bytesCompare]
    | cons y ys =>
      simp only [bytesCompare]
      rcases Nat.lt_trichotomy x y with hlt | heq | hgt
      · have h2 : ¬ y < x := by omega
        simp [hlt, h2]
      · subst heq
        simp [ih ys]
      · have h2 : ¬ x < y := by omega
        simp [hgt, h2]

theorem bytesCompare_trans (a b c : List Nat) (hab : bytesCompare a b = -1)
    (hbc : bytesCompare b c = -1) : bytesCompare a c = -1 := by
  induction a generalizing b c with
  | nil =>
    cases b with
    | nil => simp [bytesCompare] at hab
    | cons y ys =>
      cases c with
      | nil => simp [bytesCompare] at hbc
      | cons z zs => simp [bytesCompare]
  | cons x xs ih =>
    cases b with
    | nil => simp [bytesCompare] at hab
    | cons y ys =>
      cases c with
      | nil => simp [bytesCompare] at hbc
      | cons z zs =>
        simp only [bytesCompare] at hab hbc ⊢
        split_ifs at hab hbc ⊢ <;> first | omega | rfl | (exact ih ys zs hab hbc)

/-! ## What `sort.Search` returns -/

/-- The result of the loop lies in the interval it was started on. -/
theorem sortSearchLoop_bounds (f : Nat → Bool) :
    ∀ (fuel i j : Nat), i ≤ j →
      i ≤ sortSearchLoop f fuel i j ∧ sortSearchLoop f fuel i j ≤ j := by
  intro fuel
  induction fuel with
  | zero => intro i j hij; simp [sortSearchLoop, hij]
  | succ n ih =>
    intro i j hij
    unfold sortSearchLoop
    by_cases hlt : i < j
    · simp only [hlt, if_true]
      split
      · have := ih ((i + j) / 2 + 1) j (by omega)
        omega
      · have := ih i ((i + j) / 2) (by omega)
        omega
    · simp [hlt, hij]

/-- A result below the upper end of the interval is an index where `f` holds. -/
theorem sortSearchLoop_true (f : Nat → Bool) :
    ∀ (fuel i j : Nat), i ≤ j → j - i ≤ fuel → sortSearchLoop f fuel i j < j →
      f (sortSearchLoop f fuel i j) = true := by
  intro fuel
  induction fuel with
  | zero =>
    intro i j hij hfuel hlt
    simp only [sortSearchLoop] at hlt
    omega
  | succ n ih =>
    intro i j hij hfuel
    unfold sortSearchLoop
    by_cases hlt : i < j
    · simp only [hlt, if_true]
      split
      · intro hr
        exact ih _ _ (by omega) (by omega) hr
      · rename_i hf
        intro hr
        have hb := sortSearchLoop_bounds f n i ((i + j) / 2) (by omega)
        by_cases he : sortSearchLoop f n i ((i + j) / 2) = (i + j) / 2
        · rw [he]
          simpa using hf
        · exact ih _ _ (by omega) (by omega) (by omega)
    · simp only [hlt, if_false]
      intro hr
      exact hr.elim

/-- When `f` is false below `m` and true from `m` on, the loop started on an interval
around `m` returns `m`. -/
theorem sortSearchLoop_threshold (f : Nat → Bool) (m top : Nat)
    (hfalse : ∀ x, x < m → f x = false) (htrue : ∀ x, m ≤ x → x < top → f x = true) :
    ∀ (fuel i j : Nat), i ≤ m → m ≤ j → j ≤ top → j - i ≤ fuel →
      sortSearchLoop f fuel i j = m := by
  intro fuel
  induction fuel with
  | zero => intro i j him hmj _ hfuel; simp [sortSearchLoop]; omega
  | succ n ih =>
    intro i j him hmj hjt hfuel
    unfold sortSearchLoop
    by_cases hlt : i < j
    · simp only [hlt, if_true]
      by_cases hh : (i + j) / 2 < m
      · simp only [hfalse _ hh, Bool.not_false, if_true]
        exact ih _ _ (by omega) hmj hjt (by omega)
      · have hft : f ((i + j) / 2) = true := htrue _ (by omega) (by omega)
        simp only [hft, Bool.not_true, Bool.false_eq_true, if_false]
        exact ih _ _ him (by omega) (by omega) (by omega)
    · simp only [hlt, if_false]
      omega

/-- Under the same condition the threshold itself is probed when it is in the interval. -/
theorem sortSearchProbes_threshold (f : Nat → Bool) (m top : Nat)
    (hfalse : ∀ x, x < m → f x = false) (htrue : ∀ x, m ≤ x → x < top → f x = true) :
    ∀ (fuel i j : Nat), i ≤ m → m < j → j ≤ top → j - i ≤ fuel →
      m ∈ sortSearchProbesLoop f fuel i j := by
  intro fuel
  induction fuel with
  | zero => intro i j him hmj _ hfuel; omega
  | succ n ih =>
    intro i j him hmj hjt hfuel
    unfold sortSearchProbesLoop
    have hlt : i < j := by omega
    simp only [hlt, if_true]
    by_cases hh : (i + j) / 2 < m
    · simp only [hfalse _ hh, Bool.not_false, if_true]
      exact List.mem_cons_of_mem _ (ih _ _ (by omega) hmj hjt (by omega))
    · have hft : f ((i + j) / 2) = true := htrue _ (by omega) (by omega)
      simp only [hft, Bool.not_true, Bool.false_eq_true, if_false]
      by_cases he : (i + j) / 2 = m
      · rw [he]; exact List.mem_cons_self _ _
      · exact List.mem_cons_of_mem _ (ih _ _ him (by omega) (by omega) (by omega))


/-! ## One level of `split` -/

theorem frame_refl (cs : List Nat) (n next : Nat) (h : Heap) : Frame cs n next h h :=
  ⟨rfl, fun _ x hq => ⟨x, hq, rfl, rfl, fun _ => rfl, fun _ _ => rfl⟩⟩

theorem frame_trans {cs cs2 : List Nat} {n next : Nat} {a b c : Heap}
    (hsub : ∀ q, q ∈ cs2 → q ∈ cs) (hab : Frame cs n next a b) (hbc : Frame cs2 n next b c) :
    Frame cs n next a c := by
  refine ⟨hbc.1.trans hab.1, ?_⟩
  intro q x hq
  obtain ⟨x1, h1, i1, l1, p1, c1⟩ := hab.2 q x hq
  obtain ⟨x2, h2, i2, l2, p2, c2⟩ := hbc.2 q x1 h1
  refine ⟨x2, h2, i2.trans i1, l2.trans l1, ?_, ?_⟩
  · intro hnot
    rw [p2 (fun hm => hnot (hsub q hm)), p1 hnot]
  · intro hqn hqx
    rw [c2 hqn hqx, c1 hqn hqx]

theorem frame_update (cs : List Nat) (n next : Nat) (h : Heap) (p : Nat) (f : Node → Node)
    (hitems : ∀ x, (f x).items = x.items) (hleaf : ∀ x, (f x).isLeaf = x.isLeaf)
    (hpar : p ∉ cs → ∀ x, (f x).parent = x.parent)
    (hch : p ≠ n → p ≠ next → ∀ x, (f x).children = x.children) :
    Frame cs n next h (update h p f) := by
  refine ⟨length_update h p f, ?_⟩
  intro q x hq
  by_cases hqp : q = p
  · subst hqp
    exact ⟨f x, get_update_self f hq, hitems x, hleaf x, fun hn => hpar hn x,
      fun h1 h2 => hch h1 h2 x⟩
  · exact ⟨x, by rw [get_update_ne f hqp]; exact hq, rfl, rfl, fun _ => rfl, fun _ _ => rfl⟩

/-- The children loop of `split` returns when the children of `n` are nodes of the
heap; it respects `Frame`, and it leaves `n` at least `i0` children when it starts at or
after `i0` on at least `i0` children. -/
theorem splitLoop_frame (n next i0 : Nat) (hnext : next ≠ n) :
    ∀ (fuel i : Nat) (h : Heap) (nd : Node), h[n]? = some nd →
      (∀ c ∈ nd.children, c < h.length) → i0 ≤ i → i0 ≤ nd.children.length →
      ∃ h2 nd2, splitLoop n next fuel i h = .ok h2 ∧ Frame nd.children n next h h2 ∧
        h2[n]? = some nd2 ∧ i0 ≤ nd2.children.length := by
  intro fuel
  induction fuel with
  | zero =>
    intro i h nd hn _ _ hlen
    exact ⟨h, nd, rfl, frame_refl _ _ _ _, hn, hlen⟩
  | succ f ih =>
    intro i h nd hn hvalid hi0 hlen
    unfold splitLoop
    simp only [deref_of_get hn]
    cases hci : nd.children[i]? with
    | none => exact ⟨h, nd, rfl, frame_refl _ _ _ _, hn, hlen⟩
    | some c =>
      have hcmem : c ∈ nd.children := List.mem_iff_getElem?.mpr ⟨i, hci⟩
      have hclt : c < h.length := hvalid c hcmem
      have hilt : i < nd.children.length := (List.getElem?_eq_some.mp hci).1
      have hc : h[c]? = some h[c] := List.getElem?_eq_getElem hclt
      simp only [deref_of_get hc]
      -- the record of n after the three writes
      have hn1 : ∃ x1, (update h c (fun x => { x with parent := some next }))[n]? = some x1 ∧
          x1.children = nd.children := by
        by_cases hnc : n = c
        · subst hnc
          exact ⟨_, get_update_self _ hn, rfl⟩
        · exact ⟨nd, by rw [get_update_ne _ hnc]; exact hn, rfl⟩
      obtain ⟨x1, hx1, hx1c⟩ := hn1
      have hn2 : (update (update h c (fun x => { x with parent := some next })) next
          (fun x => { x with children := x.children ++ [c] }))[n]? = some x1 := by
        rw [get_update_ne _ (fun e => hnext e.symm)]; exact hx1
      have hn3 := get_update_self (fun x => { x with children := x.children.eraseIdx i }) hn2
      have hsub : ∀ q, q ∈ (x1.children.eraseIdx i) → q ∈ nd.children := by
        intro q hq
        rw [hx1c] at hq
        exact List.mem_of_mem_eraseIdx hq
      have hvalid3 : ∀ c2 ∈ ({ x1 with children := x1.children.eraseIdx i } : Node).children,
          c2 < (update (update (update h c (fun x => { x with parent := some next })) next
            (fun x => { x with children := x.children ++ [c] })) n
            (fun x => { x with children := x.children.eraseIdx i })).length := by
        intro c2 hc2
        simp only [length_update]
        exact hvalid c2 (hsub c2 hc2)
      have hlen3 : i0 ≤ ({ x1 with children := x1.children.eraseIdx i } : Node).children.length := by
        show i0 ≤ (x1.children.eraseIdx i).length
        rw [hx1c, List.length_eraseIdx]
        simp only [hilt, if_true]
        omega
      obtain ⟨h4, nd4, hrun, hframe, hn4, hlen4⟩ :=
        ih (i + 1) _ _ hn3 hvalid3 (by omega) hlen3
      have F1 : Frame nd.children n next h
          (update h c (fun x => { x with parent := some next })) := by
        apply frame_update
        · intro x; rfl
        · intro x; rfl
        · intro hnot; exact absurd hcmem hnot
        · intro _ _ x; rfl
      have F2 : Frame nd.children n next (update h c (fun x => { x with parent := some next }))
          (update (update h c (fun x => { x with parent := some next })) next
            (fun x => { x with children := x.children ++ [c] })) := by
        apply frame_update
        · intro x; rfl
        · intro x; rfl
        · intro _ x; rfl
        · intro _ hne; exact absurd rfl hne
      have F3 : Frame nd.children n next
          (update (update h c (fun x => { x with parent := some next })) next
            (fun x => { x with children := x.children ++ [c] }))
          (update (update (update h c (fun x => { x with parent := some next })) next
            (fun x => { x with children := x.children ++ [c] })) n
            (fun x => { x with children := x.children.eraseIdx i })) := by
        apply frame_update
        · intro x; rfl
        · intro x; rfl
        · intro _ x; rfl
        · intro hne; exact absurd rfl hne
      have hid : ∀ q, q ∈ nd.children → q ∈ nd.children := fun _ hq => hq
      exact ⟨h4, nd4, hrun,
        frame_trans hid F1 (frame_trans hid F2 (frame_trans hsub F3 hframe)), hn4, hlen4⟩


/-- The children block of `split` returns and respects `Frame` when the children of `n`
are nodes of the heap and the split index is not past them. -/
theorem splitChildren_frame (h5 : Heap) (n next i : Nat) (nd5 : Node)
    (hn5 : h5[n]? = some nd5) (hnext : next ≠ n)
    (hvalid : ∀ c ∈ nd5.children, c < h5.length)
    (hkids : nd5.children = [] ∨ i ≤ nd5.children.length) :
    ∃ h7, splitChildren h5 n next i nd5 = .ok h7 ∧ Frame nd5.children n next h5 h7 := by
  unfold splitChildren
  by_cases hpos : nd5.children.length > 0
  · have hle : i ≤ nd5.children.length := by
      rcases hkids with hnil | hle
      · rw [hnil] at hpos; simp at hpos
      · exact hle
    obtain ⟨h6, nd6, hrun, hframe, hn6, hlen6⟩ :=
      splitLoop_frame n next i hnext nd5.children.length i h5 nd5 hn5 hvalid (Nat.le_refl _) hle
    have hnot : ¬ i > nd6.children.length := by omega
    have F : Frame nd5.children n next h6
        (update h6 n (fun x => { x with children := x.children.take i })) := by
      apply frame_update
      · intro x; rfl
      · intro x; rfl
      · intro _ x; rfl
      · intro hne; exact absurd rfl hne
    refine ⟨_, ?_, frame_trans (fun _ hq => hq) hframe F⟩
    simp only [hpos, if_true, hrun, deref_of_get hn6, hnot, if_false]
  · exact ⟨h5, by simp only [hpos, if_false], frame_refl _ _ _ _⟩

/-- One level of `split` on a node that has a parent with fewer than five children. -/
theorem split_with_parent (fuel : Nat) (h : Heap) (n i p : Nat) (nd pd : Node)
    (hn : h[n]? = some nd) (hp : nd.parent = some p) (hpn : p ≠ n)
    (hpd : h[p]? = some pd) (hfew : pd.children.length < 5)
    (hi : i ≤ nd.items.length) (hkids : nd.children = [] ∨ i ≤ nd.children.length)
    (hvalid : ∀ c ∈ nd.children, c < h.length ∧ c ≠ n) :
    ∃ h2 nd2 sd pd2, Node.split (fuel + 1) h n i = .ok h2 ∧
      h2[n]? = some nd2 ∧ nd2.items = nd.items.take i ∧ nd2.isLeaf = nd.isLeaf ∧
      nd2.parent = some p ∧
      h2[h.length]? = some sd ∧ sd.items = nd.items.drop i ∧ sd.isLeaf = nd.isLeaf ∧
      sd.parent = some p ∧
      h2[p]? = some pd2 ∧ pd2.children = pd.children ++ [h.length] := by
  have hnlt : n < h.length := (List.getElem?_eq_some.mp hn).1
  have hplt : p < h.length := (List.getElem?_eq_some.mp hpd).1
  have hnp : n ≠ p := fun e => hpn e.symm
  have hsp : splitParent h n nd = h := by simp [splitParent, hp]
  -- after the allocation of the sibling
  have a_n : (splitAlloc h nd p)[n]? = some nd := by
    unfold splitAlloc; rw [List.getElem?_append_left hnlt]; exact hn
  have a_p : (splitAlloc h nd p)[p]? = some pd := by
    unfold splitAlloc; rw [List.getElem?_append_left hplt]; exact hpd
  have a_s : (splitAlloc h nd p)[h.length]? =
      some { isLeaf := nd.isLeaf, children := [], parent := some p, key := [], items := [] } := by
    unfold splitAlloc; simp
  -- after the registration with the parent
  have r_n : (splitRegister h nd p)[n]? = some nd := by
    unfold splitRegister; rw [get_update_ne _ hnp]; exact a_n
  have r_p : (splitRegister h nd p)[p]? =
      some { pd with children := pd.children ++ [h.length] } := by
    unfold splitRegister; exact get_update_self _ a_p
  have r_s : (splitRegister h nd p)[h.length]? =
      some { isLeaf := nd.isLeaf, children := [], parent := some p, key := [], items := [] } := by
    unfold splitRegister; rw [get_update_ne _ (by omega)]; exact a_s
  have r_len : (splitRegister h nd p).length = h.length + 1 := by
    unfold splitRegister splitAlloc; simp [length_update]
  -- after the two assignments to the items
  have i_s0 : (update (splitRegister h nd p) h.length
      (fun x => { x with items := nd.items.drop i }))[h.length]? =
      some { isLeaf := nd.isLeaf, children := [], parent := some p, key := [],
             items := nd.items.drop i } := get_update_self _ r_s
  have i_n : (splitItems (splitRegister h nd p) n h.length i nd)[n]? =
      some { nd with items := nd.items.take i } := by
    unfold splitItems
    have : (update (splitRegister h nd p) h.length
        (fun x => { x with items := nd.items.drop i }))[n]? = some nd := by
      rw [get_update_ne _ (by omega)]; exact r_n
    exact get_update_self _ this
  have i_s : (splitItems (splitRegister h nd p) n h.length i nd)[h.length]? =
      some { isLeaf := nd.isLeaf, children := [], parent := some p, key := [],
             items := nd.items.drop i } := by
    unfold splitItems; rw [get_update_ne _ (by omega)]; exact i_s0
  have i_p : (splitItems (splitRegister h nd p) n h.length i nd)[p]? =
      some { pd with children := pd.children ++ [h.length] } := by
    unfold splitItems
    rw [get_update_ne _ hpn, get_update_ne _ (by omega)]; exact r_p
  have i_len : (splitItems (splitRegister h nd p) n h.length i nd).length = h.length + 1 := by
    unfold splitItems; simp only [length_update]; exact r_len
  -- the children block
  obtain ⟨nd5, hnd5⟩ : ∃ x : Node, x = { nd with items := nd.items.take i } := ⟨_, rfl⟩
  rw [← hnd5] at i_n
  have hc5 : nd5.children = nd.children := by rw [hnd5]
  have hvalid5 : ∀ c ∈ nd5.children,
      c < (splitItems (splitRegister h nd p) n h.length i nd).length := by
    intro c hc
    rw [i_len]
    rw [hc5] at hc
    exact Nat.lt_succ_of_lt (hvalid c hc).1
  obtain ⟨h7, hrun7, hframe⟩ := splitChildren_frame _ n h.length i nd5 i_n (by omega) hvalid5
    (by rw [hc5]; exact hkids)
  obtain ⟨x_n, g_n, gi_n, gl_n, gp_n, _⟩ := hframe.2 n _ i_n
  obtain ⟨x_s, g_s, gi_s, gl_s, gp_s, _⟩ := hframe.2 h.length _ i_s
  obtain ⟨x_p, g_p, _, _, _, gc_p⟩ := hframe.2 p _ i_p
  have hn_notin : n ∉ nd5.children := fun hm => (hvalid n (hc5 ▸ hm)).2 rfl
  have hs_notin : h.length ∉ nd5.children :=
    fun hm => Nat.lt_irrefl _ (hvalid _ (hc5 ▸ hm)).1
  have hpar_n : x_n.parent = some p := by rw [gp_n hn_notin, hnd5]; exact hp
  have gi_n : x_n.items = nd.items.take i := by rw [gi_n, hnd5]
  have gl_n : x_n.isLeaf = nd.isLeaf := by rw [gl_n, hnd5]
  have hch_p : x_p.children = pd.children ++ [h.length] := gc_p hpn (by omega)
  have hnot5 : ¬ x_p.children.length > 5 := by
    rw [hch_p]; simp; omega
  refine ⟨h7, x_n, x_s, x_p, ?_, g_n, gi_n, gl_n, hpar_n, g_s, gi_s, gl_s, gp_s hs_notin,
    g_p, hch_p⟩
  rw [split_succ]
  simp only [deref_of_get hn, hsp, hp, deref_of_get a_p, deref_of_get r_n,
    Nat.not_lt.mpr hi, gt_iff_lt, if_false, deref_of_get i_n, hrun7]
  unfold splitAscend
  simp only [deref_of_get g_n, hpar_n, deref_of_get g_p, hnot5, if_false]


/-- On a node without parent, `split` first makes the parent and then goes on as on a node
that has one. -/
theorem split_parentless_eq (fuel : Nat) (h : Heap) (n i : Nat) (nd : Node)
    (hn : h[n]? = some nd) (hp : nd.parent = none) :
    Node.split (fuel + 1) h n i = Node.split (fuel + 1) (splitParent h n nd) n i := by
  have hnlt : n < h.length := (List.getElem?_eq_some.mp hn).1
  have h1n : (splitParent h n nd)[n]? = some { nd with parent := some h.length } := by
    simp only [splitParent, hp]
    apply get_update_self
    rw [List.getElem?_append_left hnlt]; exact hn
  have hsp : splitParent (splitParent h n nd) n { nd with parent := some h.length } =
      splitParent h n nd := by
    simp [splitParent]
  rw [split_succ, split_succ]
  simp only [deref_of_get hn, deref_of_get h1n, hsp]

/-- One level of `split`: the node keeps the items before the index, a new sibling with
the same leaf flag holds the others, both have the same parent, and the sibling is the
last child of that parent. -/
theorem split_one_level (fuel : Nat) (h : Heap) (n i : Nat) (nd : Node)
    (hn : h[n]? = some nd) (hi : i ≤ nd.items.length)
    (hkids : nd.children = [] ∨ i ≤ nd.children.length)
    (hvalid : ∀ c ∈ nd.children, c < h.length ∧ c ≠ n)
    (hpar : ∀ p, nd.parent = some p → p ≠ n ∧ ∃ pd, h[p]? = some pd ∧ pd.children.length < 5) :
    ∃ h2 s p nd2 sd pd2, Node.split (fuel + 1) h n i = .ok h2 ∧ h[s]? = none ∧
      h2[n]? = some nd2 ∧ nd2.items = nd.items.take i ∧
      h2[s]? = some sd ∧ sd.isLeaf = nd.isLeaf ∧ sd.items = nd.items.drop i ∧
      nd2.parent = some p ∧ sd.parent = some p ∧
      h2[p]? = some pd2 ∧ pd2.children.getLast? = some s ∧
      (match nd.parent with
       | some p0 => p = p0 ∧ ∃ pd, h[p0]? = some pd ∧ pd2.children = pd.children ++ [s]
       | none => h[p]? = none ∧ pd2.children = [n, s]) := by
  have hnlt : n < h.length := (List.getElem?_eq_some.mp hn).1
  cases hp : nd.parent with
  | some p0 =>
    obtain ⟨hpn, pd, hpd, hfew⟩ := hpar p0 hp
    obtain ⟨h2, nd2, sd, pd2, hrun, g_n, gi_n, _, gp_n, g_s, gi_s, gl_s, gp_s, g_p, gc_p⟩ :=
      split_with_parent fuel h n i p0 nd pd hn hp hpn hpd hfew hi hkids hvalid
    refine ⟨h2, h.length, p0, nd2, sd, pd2, hrun, by simp, g_n, gi_n, g_s, gl_s, gi_s,
      gp_n, gp_s, g_p, ?_, rfl, pd, hpd, gc_p⟩
    rw [gc_p]; simp
  | none =>
    have hlen1 : (splitParent h n nd).length = h.length + 1 := by
      simp [splitParent, hp, length_update]
    have h1n : (splitParent h n nd)[n]? = some { nd with parent := some h.length } := by
      simp only [splitParent, hp]
      apply get_update_self
      rw [List.getElem?_append_left hnlt]; exact hn
    have h1p : (splitParent h n nd)[h.length]? =
        some { isLeaf := false, children := [n], parent := none, key := [], items := [] } := by
      simp only [splitParent, hp]
      rw [get_update_ne _ (by omega)]
      simp
    have hvalid1 : ∀ c ∈ ({ nd with parent := some h.length } : Node).children,
        c < (splitParent h n nd).length ∧ c ≠ n := by
      intro c hc
      rw [hlen1]
      exact ⟨Nat.lt_succ_of_lt (hvalid c hc).1, (hvalid c hc).2⟩
    obtain ⟨h2, nd2, sd, pd2, hrun, g_n, gi_n, _, gp_n, g_s, gi_s, gl_s, gp_s, g_p, gc_p⟩ :=
      split_with_parent fuel (splitParent h n nd) n i h.length _ _ h1n rfl (by omega) h1p
        (by simp) hi hkids hvalid1
    rw [hlen1] at g_s gc_p
    refine ⟨h2, h.length + 1, h.length, nd2, sd, pd2, ?_, by simp, g_n, gi_n, g_s, gl_s, gi_s,
      gp_n, gp_s, g_p, ?_, by simp, ?_⟩
    · rw [split_parentless_eq fuel h n i nd hn hp]; exact hrun
    · rw [gc_p]; simp
    · rw [gc_p]; simp


/-! ## `inodes.search` at the first item -/

/-- On ascending items, a key below the first item makes `inodes.search` answer -1. -/
theorem search_below_first (first : inode) (rest : List inode) (k : List Nat)
    (hsorted : strictlyAscending (first :: rest)) (hlt : bytesCompare k first.key = -1) :
    inodes.search (first :: rest) k = (-1, false) := by
  have hall : ∀ x, 0 ≤ x → x < (first :: rest).length → notLess (first :: rest) k x = true := by
    intro x _ hx
    unfold notLess
    rw [List.getElem?_eq_getElem hx]
    have hk : bytesCompare k ((first :: rest)[x]).key = -1 := by
      cases x with
      | zero => exact hlt
      | succ y =>
        have hp := (List.pairwise_iff_getElem.mp hsorted) 0 (y + 1) (by simp) hx (by omega)
        exact bytesCompare_trans _ _ _ hlt hp
    have h1 : bytesCompare ((first :: rest)[x]).key k = 1 := (bytesCompare_swap _ _).mpr hk
    simp [h1]
  have hzero : sortSearch (first :: rest).length (notLess (first :: rest) k) = 0 :=
    sortSearchLoop_threshold _ 0 (first :: rest).length (fun x hx => absurd hx (Nat.not_lt_zero x))
      hall _ 0 _ (Nat.le_refl 0) (Nat.zero_le _) (Nat.le_refl _) (by omega)
  have hne : first.key ≠ k := by
    intro e
    rw [e, (bytesCompare_eq_zero k k).mpr rfl] at hlt
    exact absurd hlt (by decide)
  unfold inodes.search
  simp only [hzero, List.getElem?_cons_zero, bytesEqual]
  simp [hne]

/-- A miss of `inodes.search` with a negative index happens only for a key below the
first item. -/
theorem search_miss_nonneg (first : inode) (rest : List inode) (k : List Nat) (index : Int)
    (hge : bytesCompare k first.key ≠ -1)
    (hs : inodes.search (first :: rest) k = (index, false)) : 0 ≤ index := by
  unfold inodes.search at hs
  dsimp only at hs
  by_cases hz : sortSearch (first :: rest).length (notLess (first :: rest) k) = 0
  · exfalso
    have htrue := sortSearchLoop_true (notLess (first :: rest) k) (first :: rest).length 0
      (first :: rest).length (Nat.zero_le _) (by omega)
    have hz2 : sortSearchLoop (notLess (first :: rest) k) (first :: rest).length 0
        (first :: rest).length = 0 := hz
    rw [hz2] at htrue
    have hf := htrue (by simp)
    simp only [hz, List.getElem?_cons_zero] at hs
    have hne : first.key ≠ k := by
      intro e
      simp [bytesEqual, e] at hs
    have h0 : bytesCompare first.key k ≠ 0 := fun e => hne ((bytesCompare_eq_zero _ _).mp e)
    have hm : bytesCompare first.key k ≠ -1 := by
      simpa [notLess] using hf
    rcases bytesCompare_values first.key k with h | h | h
    · exact hm h
    · exact h0 h
    · exact hge ((bytesCompare_swap _ _).mp h)
  · have hpos : 0 < sortSearch (first :: rest).length (notLess (first :: rest) k) := by omega
    split at hs
    · split at hs
      · simp at hs
      · simp only [Prod.mk.injEq, and_true] at hs
        omega
    · simp only [Prod.mk.injEq, and_true] at hs
      omega

/-- A miss of `inodes.search` answers an index below the number of items. -/
theorem search_miss_lt (items : List inode) (k : List Nat) (index : Int)
    (hs : inodes.search items k = (index, false)) : index < items.length := by
  have hb : sortSearch items.length (notLess items k) ≤ items.length :=
    (sortSearchLoop_bounds (notLess items k) items.length 0 items.length (Nat.zero_le _)).2
  unfold inodes.search at hs
  dsimp only at hs
  split at hs
  · split at hs
    · simp at hs
    · simp only [Prod.mk.injEq, and_true] at hs
      omega
  · simp only [Prod.mk.injEq, and_true] at hs
    omega

/-- The copy that shifts the tail of a slice one place to the right keeps its length. -/
theorem length_shiftRight (s : List inode) (src : Nat) (hsrc : src + 1 ≤ s.length) :
    (shiftRight s src).length = s.length := by
  unfold shiftRight
  simp only [List.length_append, List.length_take, List.length_drop]
  omega


/-! ## Routing at one internal node -/

theorem sorted_lt (items : List inode) (hs : strictlyAscending items) (x y : Nat)
    (itx ity : inode) (hx : items[x]? = some itx) (hy : items[y]? = some ity) (hxy : x < y) :
    bytesCompare itx.key ity.key = -1 := by
  obtain ⟨hxl, hxe⟩ := List.getElem?_eq_some.mp hx
  obtain ⟨hyl, hye⟩ := List.getElem?_eq_some.mp hy
  have := (List.pairwise_iff_getElem.mp hs) x y hxl hyl hxy
  rw [hxe, hye] at this
  exact this

theorem notLess_of_get (items : List inode) (k : List Nat) (x : Nat) (it : inode)
    (hx : items[x]? = some it) : notLess items k x = decide (bytesCompare it.key k ≠ -1) := by
  simp [notLess, hx]

theorem isEqualAt_of_get (items : List inode) (k : List Nat) (x : Nat) (it : inode)
    (hx : items[x]? = some it) : isEqualAt items k x = decide (bytesCompare it.key k = 0) := by
  simp [isEqualAt, hx]

/-- At a node with ascending items, for a key that is at least item `i` and below item
`i + 1`: the search reports an exact hit exactly when the node has an item with that key,
and the child index it ends with is `i`. -/
theorem route_at_node (items : List inode) (k : List Nat) (i : Nat) (it : inode)
    (hs : strictlyAscending items) (hi : items[i]? = some it)
    (hlow : bytesCompare k it.key ≠ -1)
    (hhigh : ∀ nx : inode, items[i + 1]? = some nx → bytesCompare k nx.key = -1) :
    (sortSearchProbes items.length (notLess items k)).any (isEqualAt items k) =
      items.any (fun x => bytesEqual x.key k) ∧
    (if (!(sortSearchProbes items.length (notLess items k)).any (isEqualAt items k) &&
          decide (sortSearch items.length (notLess items k) > 0)) = true
      then sortSearch items.length (notLess items k) - 1
      else sortSearch items.length (notLess items k)) = i := by
  have hil : i < items.length := (List.getElem?_eq_some.mp hi).1
  by_cases heq : it.key = k
  · -- the separator itself: the lower bound is i and it is probed
    have hfalse : ∀ x, x < i → notLess items k x = false := by
      intro x hx
      have hxl : x < items.length := by omega
      have hgx := List.getElem?_eq_getElem hxl
      rw [notLess_of_get items k x _ hgx]
      have := sorted_lt items hs x i _ it hgx hi hx
      rw [heq] at this
      simp [this]
    have htrue : ∀ x, i ≤ x → x < items.length → notLess items k x = true := by
      intro x hx hxl
      by_cases hxi : x = i
      · rw [hxi, notLess_of_get items k i it hi]
        simp [(bytesCompare_eq_zero _ _).mpr heq]
      · have hgx := List.getElem?_eq_getElem hxl
        rw [notLess_of_get items k x _ hgx]
        have hlt := sorted_lt items hs i x it _ hi hgx (by omega)
        rw [heq] at hlt
        have := (bytesCompare_swap (items[x]).key k).mpr hlt
        simp [this]
    have hidx : sortSearch items.length (notLess items k) = i :=
      sortSearchLoop_threshold _ i items.length hfalse htrue _ 0 _ (Nat.zero_le _)
        (Nat.le_of_lt hil) (Nat.le_refl _) (by omega)
    have hprobe : i ∈ sortSearchProbes items.length (notLess items k) :=
      sortSearchProbes_threshold _ i items.length hfalse htrue _ 0 _ (Nat.zero_le _) hil
        (Nat.le_refl _) (by omega)
    have hhit : isEqualAt items k i = true := by
      rw [isEqualAt_of_get items k i it hi]
      simp [(bytesCompare_eq_zero _ _).mpr heq]
    have hexact : (sortSearchProbes items.length (notLess items k)).any (isEqualAt items k)
        = true := List.any_eq_true.mpr ⟨i, hprobe, hhit⟩
    have hany : items.any (fun x => bytesEqual x.key k) = true :=
      List.any_eq_true.mpr ⟨it, List.mem_iff_getElem?.mpr ⟨i, hi⟩, by simp [bytesEqual, heq]⟩
    refine ⟨by rw [hexact, hany], ?_⟩
    rw [hexact, hidx]
    simp
  · -- strictly between two separators: the lower bound is i + 1 and nothing is equal
    have hk1 : bytesCompare k it.key = 1 := by
      rcases bytesCompare_values k it.key with h | h | h
      · exact absurd h hlow
      · exact absurd ((bytesCompare_eq_zero _ _).mp h).symm heq
      · exact h
    have hitk : bytesCompare it.key k = -1 := (bytesCompare_swap _ _).mp hk1
    have hbelow : ∀ (x : Nat) (itx : inode), items[x]? = some itx → x ≤ i →
        bytesCompare itx.key k = -1 := by
      intro x itx hgx hx
      by_cases hxi : x = i
      · rw [hxi, hi] at hgx
        cases hgx
        exact hitk
      · exact bytesCompare_trans _ _ _ (sorted_lt items hs x i itx it hgx hi (by omega)) hitk
    have habove : ∀ (x : Nat) (itx : inode), items[x]? = some itx → i + 1 ≤ x →
        bytesCompare itx.key k = 1 := by
      intro x itx hgx hx
      have hxl : x < items.length := (List.getElem?_eq_some.mp hgx).1
      have hnl : i + 1 < items.length := by omega
      have hgn := List.getElem?_eq_getElem hnl
      have hkn := hhigh _ hgn
      apply (bytesCompare_swap _ _).mpr
      by_cases hxi : x = i + 1
      · rw [hxi, hgn] at hgx
        cases hgx
        exact hkn
      · exact bytesCompare_trans _ _ _ hkn
          (sorted_lt items hs (i + 1) x _ itx hgn hgx (by omega))
    have hfalse : ∀ x, x < i + 1 → notLess items k x = false := by
      intro x hx
      have hxl : x < items.length := by omega
      have hgx := List.getElem?_eq_getElem hxl
      rw [notLess_of_get items k x _ hgx]
      simp [hbelow x _ hgx (by omega)]
    have htrue : ∀ x, i + 1 ≤ x → x < items.length → notLess items k x = true := by
      intro x hx hxl
      have hgx := List.getElem?_eq_getElem hxl
      rw [notLess_of_get items k x _ hgx]
      simp [habove x _ hgx hx]
    have hidx : sortSearch items.length (notLess items k) = i + 1 :=
      sortSearchLoop_threshold _ (i + 1) items.length hfalse htrue _ 0 _ (Nat.zero_le _)
        (by omega) (Nat.le_refl _) (by omega)
    have hnoeq : ∀ (x : Nat) (itx : inode), items[x]? = some itx → bytesCompare itx.key k ≠ 0 := by
      intro x itx hgx
      by_cases hx : x ≤ i
      · rw [hbelow x itx hgx hx]; decide
      · rw [habove x itx hgx (by omega)]; decide
    have hexact : (sortSearchProbes items.length (notLess items k)).any (isEqualAt items k)
        = false := by
      rw [Bool.eq_false_iff]
      intro hcon
      obtain ⟨x, _, hx⟩ := List.any_eq_true.mp hcon
      unfold isEqualAt at hx
      cases hgx : items[x]? with
      | none => simp [hgx] at hx
      | some itx =>
        simp only [hgx, decide_eq_true_eq] at hx
        exact hnoeq x itx hgx hx
    have hany : items.any (fun x => bytesEqual x.key k) = false := by
      rw [Bool.eq_false_iff]
      intro hcon
      obtain ⟨itx, hmem, hx⟩ := List.any_eq_true.mp hcon
      obtain ⟨x, hgx⟩ := List.mem_iff_getElem?.mp hmem
      have hkey : itx.key = k := by simpa [bytesEqual] using hx
      exact hnoeq x itx hgx ((bytesCompare_eq_zero _ _).mpr hkey)
    refine ⟨by rw [hexact, hany], ?_⟩
    rw [hexact, hidx]
    simp


/-! ## `searchNode` in a well-routed tree -/

/-- From any node of a well-routed tree: `searchNode` follows the chain of child links
to the leaf that holds the key, and the flag it returns is the flag it was given or-ed
with "some internal node on the chain has an item with this key". -/
theorem searchNode_follows_path (h : Heap) (root : Nat) (k : List Nat)
    (hwf : WellRouted h root) (l : Nat) (hk : holdsKey h l k) :
    ∀ (n : Nat) (path : List Nat), PathTo h n path l → InTree h root n →
      ∀ (fuel : Nat) (e : Bool), path.length < fuel →
        searchNode fuel h k n (some e) = .ok (l, some (e || path.any (hasSeparator h k))) := by
  intro n path hpath
  induction hpath with
  | leaf n nd hn hleaf =>
    intro _ fuel e hfuel
    cases fuel with
    | zero => exact absurd hfuel (Nat.not_lt_zero _)
    | succ f => simp [searchNode, deref_of_get hn, hleaf]
  | step n nd c path l hn hint hc hrest ih =>
    intro htree fuel e hfuel
    cases fuel with
    | zero => exact absurd hfuel (Nat.not_lt_zero _)
    | succ f =>
      obtain ⟨_, hcount, hsorted, hrange⟩ := hwf n nd htree hn hint
      obtain ⟨i, hci⟩ := List.mem_iff_getElem?.mp hc
      have hil : i < nd.items.length := by
        rw [hcount]; exact (List.getElem?_eq_some.mp hci).1
      have hii := List.getElem?_eq_getElem hil
      obtain ⟨hlow, hhigh⟩ := hrange i c _ hci hii path l k hrest hk
      obtain ⟨hexact, hindex⟩ := route_at_node nd.items k i _ hsorted hii hlow hhigh
      have hsub := ih hk (InTree.child n nd c htree hn hint hc) f
        (e || nd.items.any (fun x => bytesEqual x.key k)) (by simpa using hfuel)
      have hsep : hasSeparator h k n = nd.items.any (fun x => bytesEqual x.key k) := by
        simp [hasSeparator, hn]
      unfold searchNode
      simp only [deref_of_get hn, hint, Bool.false_eq_true, if_false, Option.isNone_some,
        Bool.and_false, hindex, hci]
      rw [hexact]
      cases hany : nd.items.any (fun x => bytesEqual x.key k) with
      | true =>
        rw [hany] at hsub
        simp only [if_true]
        rw [show (some true : Option Bool) = some (e || true) by simp]
        rw [hsub]
        simp [hsep, hany]
      | false =>
        rw [hany] at hsub
        simp only [Bool.false_eq_true, if_false]
        rw [show (some e : Option Bool) = some (e || false) by simp]
        rw [hsub]
        simp [hsep, hany]


/-! ## The claims C11 to C20 -/

/-- C11: for every tree reached from the empty tree by Insert and Del calls and every
key k, Del(k) returns, and a second Del(k) returns the tree the first one returned. -/
theorem del_twice_same_as_once (ops : List Op) (b : Btree) (k : List Nat)
    (hreach : runOps emptyTree ops = .ok b) :
    ∃ b1, b.Del k = .ok b1 ∧ b1.Del k = .ok b1 := by
  obtain ⟨nd2, hroot, hnd2, hleaf⟩ :=
    runOps_leaf_root ops emptyTree b 0 _ rfl rfl rfl hreach
  have hdel := del_of_leaf_root b 0 nd2 k hroot hnd2 hleaf
  exact ⟨b, hdel, hdel⟩

/-- C11 at the tree reached by Insert(a, 1), Insert(b, 2), Del(c), with k = a. -/
theorem del_twice_same_as_once_witness :
    ∃ b, runOps emptyTree [.insert [97] [1], .insert [98] [2], .del [99]] = .ok b ∧
      ∃ b1, b.Del [97] = .ok b1 ∧ b1.Del [97] = .ok b1 :=
  ⟨_, rfl, del_twice_same_as_once [.insert [97] [1], .insert [98] [2], .del [99]] _ [97] rfl⟩

/-- C12 fails on the code. On the root leaf holding a and c, Insert(b, 2) gives the items
b, a, c and Insert(d, 4) gives a, d, c: the new item goes one place before the position
that keeps the keys ascending (which would give a, b, c and a, c, d). -/
theorem insert_lands_one_place_early :
    strictlyAscending [(⟨[97], [1]⟩ : inode), ⟨[99], [3]⟩] ∧
    (∃ b r, twoItemRoot.Insert [98] [2] = .ok b ∧ b.rootNode = .ok r ∧
      r.items = [⟨[98], [2]⟩, ⟨[97], [1]⟩, ⟨[99], [3]⟩] ∧ ¬ strictlyAscending r.items) ∧
    (∃ b r, twoItemRoot.Insert [100] [4] = .ok b ∧ b.rootNode = .ok r ∧
      r.items = [⟨[97], [1]⟩, ⟨[100], [4]⟩, ⟨[99], [3]⟩] ∧ ¬ strictlyAscending r.items) :=
  ⟨by decide, ⟨_, _, rfl, rfl, rfl, by decide⟩, ⟨_, _, rfl, rfl, rfl, by decide⟩⟩

/-- C15 fails on the code. Node 0 of `sixChildrenHeap` has the children 1 .. 6 and six
items. After split(3) its children are 1, 2, 3, the new sibling (node 8) has the children
4 and 6 only, and child 5 is in neither list and still has node 0 as its parent. -/
theorem split_children_skips_every_other :
    ∃ h2 nd sib c5, Node.split (budget sixChildrenHeap) sixChildrenHeap 0 3 = .ok h2 ∧
      deref h2 0 = .ok nd ∧ nd.children = [1, 2, 3] ∧
      deref h2 8 = .ok sib ∧ sib.isLeaf = false ∧ sib.children = [4, 6] ∧
      deref h2 5 = .ok c5 ∧ c5.parent = some 0 :=
  ⟨_, _, _, _, rfl, rfl, rfl, rfl, rfl, rfl, rfl, rfl⟩

/-- C18 fails on the code. In `mergeHeap` node 1 underflows, is the first child of the
root and has the right-hand sibling 2 with the children 5, 6, 7, all with parent 2.
After rebalance on node 1 its children are 4, 5, 6 and not 4, 5, 6, 7; child 6 still has
parent 2; child 7 has parent 1 but is a child of no node. The separator m and node 2 did
leave the root. -/
theorem merge_loses_one_child_and_one_parent_link :
    ∃ h2 nd root c6 c7, Node.rebalance (budget mergeHeap) mergeHeap 1 = .ok h2 ∧
      deref h2 1 = .ok nd ∧ nd.children = [4, 5, 6] ∧
      deref h2 6 = .ok c6 ∧ c6.parent = some 2 ∧
      deref h2 7 = .ok c7 ∧ c7.parent = some 1 ∧
      (h2.all fun x => !x.children.contains 7) = true ∧
      deref h2 0 = .ok root ∧ root.children = [1, 3] ∧
      root.items.map inode.key = [[97], [120]] :=
  ⟨_, _, _, _, _, rfl, rfl, rfl, rfl, rfl, rfl, rfl, rfl, rfl, rfl, rfl⟩

/-- C19: on every tree whose root is a leaf, Del(k) returns the tree unchanged for every
key k; and after any run of Insert and Del calls that starts from such a tree (the empty
tree is one) the `root` field is the same, the root is still a leaf, and Del still
returns the tree unchanged: no call of Del ever removes an item. -/
theorem del_never_changes_leaf_rooted_tree (b : Btree) (r : Nat) (nd : Node)
    (hr : b.root = some r) (hnd : b.heap[r]? = some nd) (hleaf : nd.isLeaf = true) :
    (∀ k, b.Del k = .ok b) ∧
    ∀ ops b2, runOps b ops = .ok b2 →
      (∃ nd2 : Node, b2.root = some r ∧ b2.heap[r]? = some nd2 ∧ nd2.isLeaf = true) ∧
      ∀ k, b2.Del k = .ok b2 := by
  refine ⟨fun k => del_of_leaf_root b r nd k hr hnd hleaf, ?_⟩
  intro ops b2 hrun
  obtain ⟨nd2, hroot, hnd2, hleaf2⟩ := runOps_leaf_root ops b b2 r nd hr hnd hleaf hrun
  exact ⟨⟨nd2, hroot, hnd2, hleaf2⟩, fun k => del_of_leaf_root b2 r nd2 k hroot hnd2 hleaf2⟩

/-- C19 at the empty tree. -/
theorem del_never_changes_leaf_rooted_tree_witness :
    emptyTree.root = some 0 ∧
    emptyTree.heap[0]? =
      some { isLeaf := true, children := [], parent := none, key := [], items := [] } ∧
    ((∀ k, emptyTree.Del k = .ok emptyTree) ∧
      ∀ ops b2, runOps emptyTree ops = .ok b2 →
        (∃ nd2 : Node, b2.root = some 0 ∧ b2.heap[0]? = some nd2 ∧ nd2.isLeaf = true) ∧
        ∀ k, b2.Del k = .ok b2) :=
  ⟨rfl, rfl, del_never_changes_leaf_rooted_tree emptyTree 0 _ rfl rfl rfl⟩


/-- C16 fails on the code as stated. Node 1 of `oneItemLeafHeap` is a leaf that holds
exactly one item, which is its minimum, and it has siblings; rebalance on it returns a
different heap (it merges the right-hand sibling into the node). -/
theorem rebalance_at_minimum_merges :
    ∃ nd h2, deref oneItemLeafHeap 1 = .ok nd ∧ nd.isLeaf = true ∧
      nd.minkey ≤ nd.items.length ∧
      Node.rebalance (budget oneItemLeafHeap) oneItemLeafHeap 1 = .ok h2 ∧
      h2 ≠ oneItemLeafHeap ∧
      (h2[1]?).map (fun x => x.items.map inode.key) = some [[97], [99], [100]] ∧
      (h2[0]?).map Node.children = some [1, 3] :=
  ⟨_, _, rfl, rfl, by decide, rfl, by decide, rfl, rfl⟩

/-- C16 as amended: for every node whose item count is strictly above its minimum (at
least 2 items for a leaf, at least 3 for an internal node), rebalance returns the heap
unchanged. -/
theorem rebalance_above_minimum_unchanged (fuel : Nat) (h : Heap) (n : Nat) (nd : Node)
    (hn : h[n]? = some nd) (habove : nd.minkey < nd.items.length) :
    Node.rebalance (fuel + 1) h n = .ok h := by
  unfold Node.rebalance
  simp [deref_of_get hn, habove]

/-- C16 as amended, at node 2 of `oneItemLeafHeap`, a leaf with two items. -/
theorem rebalance_above_minimum_unchanged_witness :
    oneItemLeafHeap[2]? = some (leafOf 0 [99] [99, 100]) ∧
    (leafOf 0 [99] [99, 100]).minkey < (leafOf 0 [99] [99, 100]).items.length ∧
    Node.rebalance (0 + 1) oneItemLeafHeap 2 = .ok oneItemLeafHeap :=
  ⟨rfl, by decide, rebalance_above_minimum_unchanged 0 oneItemLeafHeap 2 _ rfl (by decide)⟩

/-- C17 fails on the code as stated. The root of `emptyRootHeap` has no parent, is
internal, holds zero items (below the internal minimum) and has exactly one child, a leaf
with two items. Rebalance on it returns the heap unchanged: the root stays internal and
takes nothing from the child. -/
theorem rebalance_root_without_items_keeps_child :
    ∃ nd cd, deref emptyRootHeap 0 = .ok nd ∧ nd.parent = none ∧ nd.isLeaf = false ∧
      nd.items.length < nd.minkey ∧ nd.children = [1] ∧
      deref emptyRootHeap 1 = .ok cd ∧ cd.isLeaf = true ∧ cd.items.length = 2 ∧
      Node.rebalance (budget emptyRootHeap) emptyRootHeap 0 = .ok emptyRootHeap :=
  ⟨_, _, rfl, rfl, rfl, by decide, rfl, rfl, rfl, rfl, rfl⟩

/-- C17 as amended: for every parentless internal node n with exactly one item and
exactly one child c (another node, whose own children are nodes of the heap other than n
and c), rebalance returns; afterwards n has the leaf flag, the items and the children of
c and is otherwise as before, every adopted child has parent n and is otherwise as before,
c has lost its parent link and is otherwise as before, and no other node has changed. -/
theorem rebalance_root_collapse (fuel : Nat) (h : Heap) (n c : Nat) (nd cd : Node)
    (hn : h[n]? = some nd) (hparent : nd.parent = none) (hinternal : nd.isLeaf = false)
    (hitems : nd.items.length = 1) (hchildren : nd.children = [c])
    (hc : h[c]? = some cd) (hcn : c ≠ n)
    (hgrand : ∀ cc ∈ cd.children, cc ≠ n ∧ cc ≠ c ∧ cc < h.length) :
    ∃ h2, Node.rebalance (fuel + 1) h n = .ok h2 ∧ h2.length = h.length ∧
      h2[n]? = some { nd with isLeaf := cd.isLeaf, items := cd.items,
                              children := cd.children } ∧
      (∀ cc ∈ cd.children, ∃ x, h[cc]? = some x ∧
        h2[cc]? = some { x with parent := some n }) ∧
      h2[c]? = some { cd with parent := none } ∧
      ∀ q, q ≠ n → q ≠ c → q ∉ cd.children → h2[q]? = h[q]? := by
  have hnc : n ≠ c := fun e => hcn e.symm
  -- the three assignments to the fields of n
  have g1 : (update h n (fun x => { x with isLeaf := cd.isLeaf }))[c]? = some cd := by
    rw [get_update_ne _ hcn]; exact hc
  have g2 : (update (update h n (fun x => { x with isLeaf := cd.isLeaf })) n
      (fun x => { x with items := cd.items }))[c]? = some cd := by
    rw [get_update_ne _ hcn]; exact g1
  have hvalid : ∀ cc ∈ cd.children, cc < (update (update (update h n
      (fun x => { x with isLeaf := cd.isLeaf })) n (fun x => { x with items := cd.items })) n
      (fun x => { x with children := cd.children })).length := by
    intro cc hcc
    simp only [length_update]
    exact (hgrand cc hcc).2.2
  obtain ⟨h4, hrun, hlen, hget⟩ := adoptLoop_spec n cd.children _ hvalid
  have hmin : ¬ 1 > nd.minkey := by
    simp [Node.minkey, hinternal]
  refine ⟨update h4 c (fun x => { x with parent := none }), ?_, ?_, ?_, ?_, ?_, ?_⟩
  · unfold Node.rebalance
    simp only [deref_of_get hn, hmin, if_false, hparent, hinternal, hitems, hchildren,
      List.getElem?_cons_zero, deref_of_get hc, deref_of_get g1, deref_of_get g2, hrun,
      Bool.not_false, Bool.true_and, decide_True, if_true]
  · simp only [length_update, hlen]
  · have hnot : n ∉ cd.children := fun hm => (hgrand n hm).1 rfl
    rw [get_update_ne _ hnc, hget n]
    simp [hnot, get_update, hn]
  · intro cc hcc
    obtain ⟨hccn, hccc, hlt⟩ := hgrand cc hcc
    refine ⟨h[cc], List.getElem?_eq_getElem hlt, ?_⟩
    rw [get_update_ne _ hccc, hget cc]
    simp [hcc, get_update, hccn, List.getElem?_eq_getElem hlt]
  · have hnot : c ∉ cd.children := fun hm => (hgrand c hm).2.1 rfl
    have hc4 : h4[c]? = some cd := by
      rw [hget c]
      simp [hnot, get_update, hcn, hc]
    rw [get_update_self _ hc4]
  · intro q hqn hqc hq
    rw [get_update_ne _ hqc, hget q]
    simp [hq, get_update, hqn]

/-- C17 as amended, at the root of `oneItemRootHeap`: one item, one child, a leaf
holding a and b. -/
theorem rebalance_root_collapse_witness :
    oneItemRootHeap[0]? = some { isLeaf := false, children := [1], parent := none, key := [],
                                 items := sepItems [97] } ∧
    oneItemRootHeap[1]? = some (leafOf 0 [97] [97, 98]) ∧
    ∃ h2, Node.rebalance (0 + 1) oneItemRootHeap 0 = .ok h2 ∧
      h2.length = oneItemRootHeap.length ∧
      h2[0]? = some { isLeaf := true, children := [], parent := none, key := [],
                      items := (leafOf 0 [97] [97, 98]).items } ∧
      (∀ cc ∈ (leafOf 0 [97] [97, 98]).children, ∃ x, oneItemRootHeap[cc]? = some x ∧
        h2[cc]? = some { x with parent := some 0 }) ∧
      h2[1]? = some { leafOf 0 [97] [97, 98] with parent := none } ∧
      ∀ q, q ≠ 0 → q ≠ 1 → q ∉ (leafOf 0 [97] [97, 98]).children →
        h2[q]? = oneItemRootHeap[q]? :=
  ⟨rfl, rfl, rebalance_root_collapse 0 oneItemRootHeap 0 1 _ _ rfl rfl rfl rfl rfl rfl
    (by decide) (by intro cc hcc; cases hcc)⟩


/-- C20: for every tree whose root is a leaf with a non-empty, strictly ascending items
sequence, Insert(k, v) fails exactly when k is strictly smaller than the key of the first
item, in which case `inodes.search` has answered -1 and the failure is the slice bounds
failure at `node.items[index:]`; in every other case Insert returns a tree. A root that
holds fewer than four items may have any parent link and any children; a root that holds
four or more, so that the insertion can reach `split`, is taken to be a root leaf proper:
it has no children, and its parent link, if `split` has set one, points to another node
with fewer than five children. -/
theorem insert_fails_exactly_below_first (b : Btree) (r : Nat) (nd : Node) (first : inode)
    (rest : List inode) (k v : List Nat)
    (hr : b.root = some r) (hnd : b.heap[r]? = some nd) (hleaf : nd.isLeaf = true)
    (hitems : nd.items = first :: rest) (hsorted : strictlyAscending nd.items)
    (hroom : 4 ≤ nd.items.length →
      nd.children = [] ∧
      ∀ p, nd.parent = some p → p ≠ r ∧ ∃ pd, b.heap[p]? = some pd ∧ pd.children.length < 5) :
    (bytesCompare k first.key = -1 ↔ b.Insert k v = .error .sliceBounds) ∧
    (bytesCompare k first.key = -1 → inodes.search nd.items k = (-1, false)) ∧
    (bytesCompare k first.key ≠ -1 → ∃ b2, b.Insert k v = .ok b2) := by
  have hsn : searchNode (budget b.heap) b.heap k r none = .ok (r, none) := by
    simp [budget, searchNode, deref_of_get hnd, hleaf]
  have hlen : ¬ nd.items.length = 0 := by rw [hitems]; simp
  have hA : bytesCompare k first.key = -1 →
      inodes.search nd.items k = (-1, false) ∧ b.Insert k v = .error .sliceBounds := by
    intro hlt
    have hs : inodes.search nd.items k = (-1, false) := by
      rw [hitems] at hsorted ⊢
      exact search_below_first first rest k hsorted hlt
    refine ⟨hs, ?_⟩
    unfold Btree.Insert
    simp only [hr, hsn, deref_of_get hnd, hlen, if_false, hs]
    simp
  have hB : bytesCompare k first.key ≠ -1 → ∃ b2, b.Insert k v = .ok b2 := by
    intro hge
    unfold Btree.Insert
    simp only [hr, hsn, deref_of_get hnd, hlen, if_false]
    rcases hsearch : inodes.search nd.items k with ⟨index, found⟩
    cases found with
    | true => exact ⟨_, rfl⟩
    | false =>
      have hnn : 0 ≤ index := by
        rw [hitems] at hsearch
        exact search_miss_nonneg first rest k index hge hsearch
      simp only [Int.not_lt.mpr hnn, if_false]
      have hlt : index < nd.items.length := search_miss_lt nd.items k index hsearch
      have hlen3 : ((shiftRight (nd.items ++ [⟨[], []⟩]) index.toNat).set index.toNat
          ⟨k, v⟩).length = nd.items.length + 1 := by
        rw [List.length_set, length_shiftRight]
        · simp
        · simp only [List.length_append, List.length_singleton]
          omega
      generalize (shiftRight (nd.items ++ [⟨[], []⟩]) index.toNat).set index.toNat ⟨k, v⟩ = items3
        at hlen3
      split
      · -- the leaf has grown past four items: one level of split
        obtain ⟨hkids, hpar⟩ := hroom (by omega)
        have hchild : nd.children.length / 2 = 0 := by rw [hkids]; rfl
        rw [hchild]
        obtain ⟨h2, _, _, _, _, _, hrun, _⟩ := split_one_level
          (update b.heap r (fun x => { x with items := items3 })).length
          (update b.heap r (fun x => { x with items := items3 }))
          r 0 _ (get_update_self _ hnd) (Nat.zero_le _) (Or.inl hkids)
          (by intro c hc; rw [hkids] at hc; cases hc)
          (by
            intro p hp
            obtain ⟨hpr, pd, hpd, hfew⟩ := hpar p hp
            exact ⟨hpr, pd, by rw [get_update_ne _ hpr]; exact hpd, hfew⟩)
        have hrun2 : Node.split (budget (update b.heap r (fun x => { x with items := items3 })))
            (update b.heap r (fun x => { x with items := items3 })) r 0 = .ok h2 := hrun
        rw [hrun2]
        exact ⟨_, rfl⟩
      · exact ⟨_, rfl⟩
  refine ⟨⟨fun hlt => (hA hlt).2, ?_⟩, fun hlt => (hA hlt).1, hB⟩
  intro hfail
  by_contra hge
  obtain ⟨b2, hok⟩ := hB hge
  rw [hok] at hfail
  cases hfail

/-- C20 at two trees. At `crowdedLeafRootTree`, whose root holds the single item a under
a parent with five children, with the key b; and at `fourItemRoot`, whose root holds
a, b, c, d and has no parent, with the key e, where the insertion goes through `split`. -/
theorem insert_fails_exactly_below_first_witness :
    (crowdedLeafRootTree.root = some 0 ∧
     crowdedLeafRootTree.heap[0]? =
       some { isLeaf := true, children := [], parent := some 1, key := [],
              items := [⟨[97], [1]⟩] } ∧
     strictlyAscending [(⟨[97], [1]⟩ : inode)] ∧
     ((bytesCompare [98] [97] = -1 ↔
         crowdedLeafRootTree.Insert [98] [2] = .error .sliceBounds) ∧
      (bytesCompare [98] [97] = -1 →
         inodes.search [(⟨[97], [1]⟩ : inode)] [98] = (-1, false)) ∧
      (bytesCompare [98] [97] ≠ -1 → ∃ b2, crowdedLeafRootTree.Insert [98] [2] = .ok b2))) ∧
    (fourItemRoot.root = some 0 ∧
     fourItemRoot.heap[0]? =
       some { isLeaf := true, children := [], parent := none, key := [],
              items := [⟨[97], [1]⟩, ⟨[98], [2]⟩, ⟨[99], [3]⟩, ⟨[100], [4]⟩] } ∧
     strictlyAscending [(⟨[97], [1]⟩ : inode), ⟨[98], [2]⟩, ⟨[99], [3]⟩, ⟨[100], [4]⟩] ∧
     ((bytesCompare [101] [97] = -1 ↔
         fourItemRoot.Insert [101] [5] = .error .sliceBounds) ∧
      (bytesCompare [101] [97] = -1 →
         inodes.search [(⟨[97], [1]⟩ : inode), ⟨[98], [2]⟩, ⟨[99], [3]⟩, ⟨[100], [4]⟩] [101]
           = (-1, false)) ∧
      (bytesCompare [101] [97] ≠ -1 → ∃ b2, fourItemRoot.Insert [101] [5] = .ok b2))) :=
  ⟨⟨rfl, rfl, by decide,
      insert_fails_exactly_below_first crowdedLeafRootTree 0 _ ⟨[97], [1]⟩ [] [98] [2]
        rfl rfl rfl rfl (by decide) (fun h4 => absurd h4 (by decide))⟩,
    ⟨rfl, rfl, by decide,
      insert_fails_exactly_below_first fourItemRoot 0 _ ⟨[97], [1]⟩
        [⟨[98], [2]⟩, ⟨[99], [3]⟩, ⟨[100], [4]⟩] [101] [5]
        rfl rfl rfl rfl (by decide) (fun _ => ⟨rfl, by intro p hp; cases hp⟩)⟩⟩


/-- C14 fails on the code as stated. Leaf 1 of `fullParentHeap` holds a, b and its parent
(node 0) already has five children. After split(1) the leaf holds a and the new sibling
(node 6) holds b, but the parent had to split too: the sibling now has parent 8 while the
leaf still has parent 0, and the sibling is not among the children of node 0. -/
theorem split_under_full_parent_separates_siblings :
    ∃ h2 leaf sib par, Node.split (budget fullParentHeap) fullParentHeap 1 1 = .ok h2 ∧
      deref h2 1 = .ok leaf ∧ leaf.items.map inode.key = [[97]] ∧ leaf.parent = some 0 ∧
      deref h2 6 = .ok sib ∧ sib.items.map inode.key = [[98]] ∧ sib.parent = some 8 ∧
      deref h2 0 = .ok par ∧ par.children = [1, 2, 3] :=
  ⟨_, _, _, _, rfl, rfl, rfl, rfl, rfl, rfl, rfl, rfl, rfl⟩

/-- C14 as amended: take a node n with items xs that is not its own parent, whose parent,
if it has one, has fewer than five children, and whose children, if it has any, are
nodes of the heap other than n and at least i in number. For every index i with
0 <= i <= len(xs), split(i) returns; afterwards the items of n are xs[0..i), a new node s
with the leaf flag of n holds xs[i..] in the same order, n and s have the same parent p,
and s is the last child of p: p is the old parent of n with s appended to its children,
or, when n had no parent, a new node with the children n, s. No item is lost or
duplicated. -/
theorem split_partitions_items (fuel : Nat) (h : Heap) (n i : Nat) (nd : Node)
    (hn : h[n]? = some nd) (hi : i ≤ nd.items.length)
    (hkids : nd.children = [] ∨ i ≤ nd.children.length)
    (hvalid : ∀ c ∈ nd.children, c < h.length ∧ c ≠ n)
    (hpar : ∀ p, nd.parent = some p → p ≠ n ∧ ∃ pd, h[p]? = some pd ∧ pd.children.length < 5) :
    ∃ h2 s p nd2 sd pd2, Node.split (fuel + 1) h n i = .ok h2 ∧ h[s]? = none ∧
      h2[n]? = some nd2 ∧ nd2.items = nd.items.take i ∧
      h2[s]? = some sd ∧ sd.isLeaf = nd.isLeaf ∧ sd.items = nd.items.drop i ∧
      nd2.parent = some p ∧ sd.parent = some p ∧
      h2[p]? = some pd2 ∧ pd2.children.getLast? = some s ∧
      (match nd.parent with
       | some p0 => p = p0 ∧ ∃ pd, h[p0]? = some pd ∧ pd2.children = pd.children ++ [s]
       | none => h[p]? = none ∧ pd2.children = [n, s]) ∧
      nd2.items ++ sd.items = nd.items := by
  obtain ⟨h2, s, p, nd2, sd, pd2, hrun, hnew, g_n, gi_n, g_s, gl_s, gi_s, gp_n, gp_s, g_p,
    hlast, hshape⟩ := split_one_level fuel h n i nd hn hi hkids hvalid hpar
  exact ⟨h2, s, p, nd2, sd, pd2, hrun, hnew, g_n, gi_n, g_s, gl_s, gi_s, gp_n, gp_s, g_p,
    hlast, hshape, by rw [gi_n, gi_s]; exact List.take_append_drop i nd.items⟩

/-- C14 as amended, at leaf 2 of `oneItemLeafHeap` (items c, d; its parent has three
children) and index 1. -/
theorem split_partitions_items_witness :
    oneItemLeafHeap[2]? = some (leafOf 0 [99] [99, 100]) ∧
    1 ≤ (leafOf 0 [99] [99, 100]).items.length ∧
    (∀ p, (leafOf 0 [99] [99, 100]).parent = some p →
      p ≠ 2 ∧ ∃ pd, oneItemLeafHeap[p]? = some pd ∧ pd.children.length < 5) ∧
    ∃ h2 s p nd2 sd pd2, Node.split (0 + 1) oneItemLeafHeap 2 1 = .ok h2 ∧
      oneItemLeafHeap[s]? = none ∧
      h2[2]? = some nd2 ∧ nd2.items = (leafOf 0 [99] [99, 100]).items.take 1 ∧
      h2[s]? = some sd ∧ sd.isLeaf = (leafOf 0 [99] [99, 100]).isLeaf ∧
      sd.items = (leafOf 0 [99] [99, 100]).items.drop 1 ∧
      nd2.parent = some p ∧ sd.parent = some p ∧
      h2[p]? = some pd2 ∧ pd2.children.getLast? = some s ∧
      (match (leafOf 0 [99] [99, 100]).parent with
       | some p0 => p = p0 ∧ ∃ pd, oneItemLeafHeap[p0]? = some pd ∧
           pd2.children = pd.children ++ [s]
       | none => oneItemLeafHeap[p]? = none ∧ pd2.children = [2, s]) ∧
      nd2.items ++ sd.items = (leafOf 0 [99] [99, 100]).items :=
  have hpar : ∀ p, (leafOf 0 [99] [99, 100]).parent = some p →
      p ≠ 2 ∧ ∃ pd, oneItemLeafHeap[p]? = some pd ∧ pd.children.length < 5 := by
    intro p hp
    cases hp
    exact ⟨by decide, _, rfl, by decide⟩
  ⟨rfl, by decide, hpar,
    split_partitions_items 0 oneItemLeafHeap 2 1 _ rfl (by decide) (Or.inl rfl)
      (by intro c hc; cases hc) hpar⟩


/-- The descent with a flag variable, as `Del` calls it. In a well-routed tree (every
internal node has at least one child and as many items as children, ascending item keys,
and the keys held beneath child i lie between item i and item i + 1), for every key k
held by a leaf l and every chain of child links from the root down to l, `searchNode`,
called on the root with a flag variable that holds false, returns l, and the flag it
reports is true exactly when some internal node of the chain has an item with key k. The
recursion budget only has to exceed the length of the chain. -/
theorem searchNode_returns_holding_leaf (h : Heap) (root : Nat) (k : List Nat)
    (path : List Nat) (l : Nat) (hwf : WellRouted h root) (hpath : PathTo h root path l)
    (hk : holdsKey h l k) (fuel : Nat) (hfuel : path.length < fuel) :
    searchNode fuel h k root (some false) =
      .ok (l, some (path.any (hasSeparator h k))) := by
  have := searchNode_follows_path h root k hwf l hk root path hpath InTree.root fuel false hfuel
  simpa using this

/-- The example tree `twoLeafHeap` is well routed. -/
theorem twoLeafHeap_wellRouted : WellRouted twoLeafHeap 0 := by
  intro m nd _ hm hint
  have hleafPath : ∀ (c : Nat) (path : List Nat) (l : Nat) (cd : Node),
      twoLeafHeap[c]? = some cd → cd.isLeaf = true → PathTo twoLeafHeap c path l → l = c := by
    intro c path l cd hcd hcl hp
    cases hp with
    | leaf _ _ _ _ => rfl
    | step _ nd2 _ _ _ hn2 hint2 _ _ =>
      rw [hcd] at hn2
      cases hn2
      rw [hcl] at hint2
      cases hint2
  rcases m with _ | _ | _ | m
  · simp only [twoLeafHeap, List.getElem?_cons_zero, Option.some.injEq] at hm
    subst hm
    refine ⟨by decide, rfl, by decide, ?_⟩
    intro i c it hci hii path l k hpath hk
    rcases i with _ | _ | i
    · simp only [List.getElem?_cons_zero, Option.some.injEq] at hci
      simp only [sepItems, List.map, List.getElem?_cons_zero, Option.some.injEq] at hii
      subst hci
      subst hii
      have hl := hleafPath 1 path l _ rfl rfl hpath
      subst hl
      obtain ⟨ld, x, hld, hx, hxk⟩ := hk
      simp only [twoLeafHeap, leafOf, List.getElem?_cons_succ, List.getElem?_cons_zero,
        Option.some.injEq] at hld
      subst hld
      simp only [List.map, List.mem_cons, List.mem_singleton, List.not_mem_nil, or_false] at hx
      rcases hx with hx | hx
      · subst hx; subst hxk
        exact ⟨by decide, by intro nx hnx; cases hnx; decide⟩
      · subst hx; subst hxk
        exact ⟨by decide, by intro nx hnx; cases hnx; decide⟩
    · simp only [List.getElem?_cons_succ, List.getElem?_cons_zero, Option.some.injEq] at hci
      simp only [sepItems, List.map, List.getElem?_cons_succ, List.getElem?_cons_zero,
        Option.some.injEq] at hii
      subst hci
      subst hii
      have hl := hleafPath 2 path l _ rfl rfl hpath
      subst hl
      obtain ⟨ld, x, hld, hx, hxk⟩ := hk
      simp only [twoLeafHeap, leafOf, List.getElem?_cons_succ, List.getElem?_cons_zero,
        Option.some.injEq] at hld
      subst hld
      simp only [List.map, List.mem_cons, List.mem_singleton, List.not_mem_nil, or_false] at hx
      rcases hx with hx | hx
      · subst hx; subst hxk
        exact ⟨by decide, by intro nx hnx; cases hnx⟩
      · subst hx; subst hxk
        exact ⟨by decide, by intro nx hnx; cases hnx⟩
    · simp at hci
  · simp only [twoLeafHeap, leafOf, List.getElem?_cons_succ, List.getElem?_cons_zero,
      Option.some.injEq] at hm
    subst hm
    cases hint
  · simp only [twoLeafHeap, leafOf, List.getElem?_cons_succ, List.getElem?_cons_zero,
      Option.some.injEq] at hm
    subst hm
    cases hint
  · simp [twoLeafHeap] at hm

/-- The descent with a flag variable at `twoLeafHeap`, for the key c, held by leaf 2 and
also a separator of the root: `searchNode` returns leaf 2 and reports an exact match. -/
theorem searchNode_returns_holding_leaf_witness :
    WellRouted twoLeafHeap 0 ∧ PathTo twoLeafHeap 0 [0] 2 ∧ holdsKey twoLeafHeap 2 [99] ∧
    [0].length < 2 ∧
    searchNode 2 twoLeafHeap [99] 0 (some false) = .ok (2, some true) :=
  have hpath : PathTo twoLeafHeap 0 [0] 2 :=
    PathTo.step 0 _ 2 [] 2 rfl rfl (by decide) (PathTo.leaf 2 _ rfl rfl)
  have hk : holdsKey twoLeafHeap 2 [99] := ⟨_, ⟨[99], [99]⟩, rfl, by decide, rfl⟩
  ⟨twoLeafHeap_wellRouted, hpath, hk, by decide,
    searchNode_returns_holding_leaf twoLeafHeap 0 [99] [0] 2 twoLeafHeap_wellRouted hpath hk 2
      (by decide)⟩

/-- C13 fails on the code. `twoLeafHeap` is well routed and its leaf 2 holds the key c,
which is also a separator of the root. Called with a flag variable, as `Del` does,
`searchNode` returns leaf 2 and reports the match. Called with the nil flag, as `Insert`
does, it fails with a nil dereference at `*exist = true` and returns no leaf; so does
Insert(c, 1) on the tree. -/
theorem searchNode_nil_flag_fails_on_separator :
    WellRouted twoLeafHeap 0 ∧ PathTo twoLeafHeap 0 [0] 2 ∧ holdsKey twoLeafHeap 2 [99] ∧
    hasSeparator twoLeafHeap [99] 0 = true ∧
    searchNode (budget twoLeafHeap) twoLeafHeap [99] 0 (some false) = .ok (2, some true) ∧
    searchNode (budget twoLeafHeap) twoLeafHeap [99] 0 none = .error .nilDeref ∧
    twoLeafTree.heap = twoLeafHeap ∧ twoLeafTree.root = some 0 ∧
    twoLeafTree.Insert [99] [1] = .error .nilDeref :=
  ⟨twoLeafHeap_wellRouted,
    PathTo.step 0 _ 2 [] 2 rfl rfl (by decide) (PathTo.leaf 2 _ rfl rfl),
    ⟨_, ⟨[99], [99]⟩, rfl, by decide, rfl⟩, rfl, rfl, rfl, rfl, rfl, rfl⟩

end btree
